import Mathlib

/-!
Verification development for the rpki-history repository.

The repository has two source files:
* `db_scripts/rpki-history-db.py` — the ingestion / temporal reconciliation
  engine (`RPKIViews.process_vrps` for full snapshots, `RPKIFlutter.process_vrps`
  for event streams, plus `get_latest_vrps` / `get_latest_dump_ts`).
* `api/rpki-history-api.py` — the query / validation engine
  (`get_rpki_status`, `VRPResource.on_get`).

Timestamps are modelled as `Nat`, database `tstzrange` values as closed-below
intervals with an optional inclusive upper bound, and Python dictionaries as
association lists with unique keys.
-/

namespace RpkiHistory

/-- An IP prefix, as a (network address, prefix length) pair. -/
structure Pfx where
  addr : Nat
  len : Nat
deriving DecidableEq, Repr

/-- The VRP identity tuple `(prefix, asn, max_length)` from
`VRP = namedtuple('VRP', ['prefix', 'asn', 'max_length'])`. -/
structure VRP where
  pfx : Pfx
  asn : Nat
  max_length : Nat
deriving DecidableEq, Repr

/-- A `visible` range of a database row: `tstzrange` with inclusive lower bound
and optional inclusive upper bound (`upper = none` means unbounded above,
written `Range(lower, None, '[)'` or `'[]')` in the Python source). -/
structure Visible where
  lower : Nat
  upper : Option Nat
deriving DecidableEq, Repr

/-- Point containment `visible @> t` for our intervals. -/
def Visible.containsT (v : Visible) (t : Nat) : Bool :=
  v.lower ≤ t && (match v.upper with
    | some u => t ≤ u
    | none => true)

/-- A row of the `vrps` table. -/
structure Rec where
  id : Nat
  vrp : VRP
  visible : Visible
deriving DecidableEq, Repr

/-- A row of the `metadata` table (the columns used by the scripts). -/
structure Meta where
  dump_time : Nat
  deleted_vrps : Nat
  unchanged_vrps : Nat
  new_vrps : Nat
deriving DecidableEq, Repr

/-- The database state: `vrps` rows, `metadata` rows, and the next value of the
`bigserial` id sequence. -/
structure Store where
  recs : List Rec
  meta : List Meta
  nextId : Nat
deriving DecidableEq, Repr

/-- The empty, freshly initialized database. -/
def emptyStore : Store := ⟨[], [], 0⟩

/-! ### Association-list maps (model of Python `dict`) -/

/-- Lookup in an association list (Python `d[k]` / `k in d`). -/
def mlookup {κ α : Type} [DecidableEq κ] : List (κ × α) → κ → Option α
  | [], _ => none
  | p :: rest, k => if p.1 = k then some p.2 else mlookup rest k

/-- Remove a key from an association list (Python `d.pop(k)` side effect). -/
def merase {κ α : Type} [DecidableEq κ] : List (κ × α) → κ → List (κ × α)
  | [], _ => []
  | p :: rest, k => if p.1 = k then merase rest k else p :: merase rest k

/-- Insert / overwrite a key (Python `d[k] = v`). -/
def minsert {κ α : Type} [DecidableEq κ] (m : List (κ × α)) (k : κ) (v : α) :
    List (κ × α) :=
  merase m k ++ [(k, v)]

/-- The keys of an association list. -/
def mkeys {κ α : Type} (m : List (κ × α)) : List κ := m.map Prod.fst

/-! ### Loading the active set (`get_latest_dump_ts`, `get_latest_vrps`) -/

/-- Maximum of a list of naturals, `none` when empty (model of
`SELECT dump_time FROM metadata ORDER BY dump_time DESC LIMIT 1`). -/
def listMax? : List Nat → Option Nat
  | [] => none
  | x :: xs => some (xs.foldl Nat.max x)

/-- `get_latest_dump_ts`: the latest dump time recorded in the metadata table. -/
def latestTs (s : Store) : Option Nat :=
  listMax? (s.meta.map Meta.dump_time)

/-- `rows_to_vrp`: build the `VRP -> (id, visible)` dictionary from a result
set, with later rows overwriting earlier ones (Python dict comprehension). -/
def rowsToDict (rows : List Rec) : List (VRP × (Nat × Visible)) :=
  rows.foldl (fun m r => minsert m r.vrp (r.id, r.visible)) []

/-- `get_latest_vrps`: the VRPs whose `visible` range contains the latest dump
time; the empty dictionary when no dump has been ingested. -/
def getLatestVrps (s : Store) : List (VRP × (Nat × Visible)) :=
  match latestTs s with
  | none => []
  | some l => rowsToDict (s.recs.filter (fun r => r.visible.containsT l))

/-! ### Full-snapshot reconciliation (`RPKIViews.process_vrps`) -/

/-- The three diffs computed at the top of `RPKIViews.process_vrps`:
`deleted_vrps = set(latest) - new`, `unchanged_vrps = new ∩ latest`,
`insert_vrps = new - latest`. -/
structure ViewsDiff where
  deleted : List (VRP × (Nat × Visible))
  unchanged : List VRP
  inserted : List VRP
deriving Repr

/-- Compute the full-snapshot diff against the loaded active set. -/
def viewsDiff (latest : List (VRP × (Nat × Visible))) (newVrps : List VRP) :
    ViewsDiff where
  deleted := latest.filter (fun p => decide (p.1 ∉ newVrps))
  unchanged := newVrps.filter (fun v => (mlookup latest v).isSome)
  inserted := newVrps.filter (fun v => (mlookup latest v).isNone)

/-- Assign consecutive fresh row ids starting at `base` (model of the
`bigserial` sequence for a batch `INSERT`). -/
def withIds (base : Nat) : List (VRP × Visible) → List Rec
  | [] => []
  | p :: rest => ⟨base, p.1, p.2⟩ :: withIds (base + 1) rest

/-- The effect of the `UPDATE vrps SET visible = %s WHERE id = %s` batch on a
single row: if the batch holds an entry for the row's id, the row gets that new
`visible` range. -/
def closeOne (upd : List (Nat × Visible)) (r : Rec) : Rec :=
  match upd.find? (fun q => decide (q.1 = r.id)) with
  | some p => { r with visible := p.2 }
  | none => r

/-- Apply the `UPDATE vrps SET visible = %s WHERE id = %s` batch to the rows. -/
def applyClose (recs : List Rec) (upd : List (Nat × Visible)) : List Rec :=
  recs.map (closeOne upd)

/-- One full-snapshot run (`RPKIHistory.update_db` driving
`RPKIViews.process_vrps`): load the latest dump time and active set, compute
the diff, close every deleted VRP at `self.latest_ts` (inclusive), insert every
new VRP open from `self.new_ts`, and record the metadata row. -/
def runViews (s : Store) (newVrps : List VRP) (newTs : Nat) : Store :=
  let latest := getLatestVrps s
  let d := viewsDiff latest newVrps
  let upd := d.deleted.map (fun p => (p.2.1, Visible.mk p.2.2.lower (latestTs s)))
  let newRecs := withIds s.nextId (d.inserted.map (fun v => (v, Visible.mk newTs none)))
  { recs := applyClose s.recs upd ++ newRecs
    meta := s.meta ++ [⟨newTs, d.deleted.length, d.unchanged.length, d.inserted.length⟩]
    nextId := s.nextId + d.inserted.length }

/-! ### Event-stream reconciliation (`RPKIFlutter.process_vrps`) -/

/-- The parquet message types: `'S'` (state), `'A'` (announce), `'W'`
(withdraw), and anything else (the `case _` branch). -/
inductive MsgType
  | state
  | announce
  | withdraw
  | unknown
deriving DecidableEq, Repr

/-- One row of the filtered data frame: message type, VRP and `capture_ts`. -/
structure Ev where
  ty : MsgType
  vrp : VRP
  ts : Nat
deriving DecidableEq, Repr

/-- The working collections of `RPKIFlutter.process_vrps`: the loaded (and
progressively popped) active set, the pending-insert map `insert_vrps` (VRP to
lower bound), the `update_rows` and `insert_rows` batches, and the three
metadata counters. -/
structure FlState where
  latest : List (VRP × (Nat × Visible))
  insert_vrps : List (VRP × Nat)
  update_rows : List (Nat × Visible)
  insert_rows : List (VRP × Visible)
  nDel : Nat
  nUnch : Nat
  nNew : Nat
deriving Repr

/-- Processing of a single event in the `for row in self.df.itertuples()` loop
of `RPKIFlutter.process_vrps`. -/
def flutterStep (st : FlState) (e : Ev) : FlState :=
  match e.ty with
  | .state =>
    match mlookup st.latest e.vrp with
    | none =>
        { st with insert_vrps := minsert st.insert_vrps e.vrp e.ts,
                  nNew := st.nNew + 1 }
    | some _ => { st with nUnch := st.nUnch + 1 }
  | .announce =>
    if (mlookup st.latest e.vrp).isSome ∨ (mlookup st.insert_vrps e.vrp).isSome then
      st
    else
      { st with nNew := st.nNew + 1,
                insert_vrps := minsert st.insert_vrps e.vrp e.ts }
  | .withdraw =>
    if (mlookup st.latest e.vrp).isNone ∧ (mlookup st.insert_vrps e.vrp).isNone then
      st
    else
      match mlookup st.latest e.vrp with
      | some iv =>
          { st with nDel := st.nDel + 1,
                    latest := merase st.latest e.vrp,
                    update_rows := st.update_rows ++ [(iv.1, ⟨iv.2.lower, some e.ts⟩)] }
      | none =>
          match mlookup st.insert_vrps e.vrp with
          | some lo =>
              { st with nDel := st.nDel + 1,
                        insert_vrps := merase st.insert_vrps e.vrp,
                        insert_rows := st.insert_rows ++ [(e.vrp, ⟨lo, some e.ts⟩)] }
          | none => st
  | .unknown => st

/-- `self.df['capture_ts'].max()`: the maximum event timestamp of the dump. -/
def maxTs (evs : List Ev) : Nat :=
  (evs.map Ev.ts).foldl Nat.max 0

/-- One event-stream run (`RPKIHistory.update_db` driving
`RPKIFlutter.process_vrps`): load the active set, fold the event handler over
the stream, then commit the metadata row (with `dump_time` the maximum event
timestamp), the `update_rows` batch, the fully bounded `insert_rows` batch, and
the remaining pending inserts as open intervals. -/
def runFlutter (s : Store) (evs : List Ev) : Store :=
  let st0 : FlState := ⟨getLatestVrps s, [], [], [], 0, 0, 0⟩
  let st := evs.foldl flutterStep st0
  let closedRecs := withIds s.nextId st.insert_rows
  let openRecs := withIds (s.nextId + st.insert_rows.length)
    (st.insert_vrps.map (fun p => (p.1, Visible.mk p.2 none)))
  { recs := applyClose s.recs st.update_rows ++ closedRecs ++ openRecs
    meta := s.meta ++ [⟨maxTs evs, st.nDel, st.nUnch, st.nNew⟩]
    nextId := s.nextId + st.insert_rows.length + st.insert_vrps.length }

/-! ### Sequences of reconciliation runs -/

/-- A reconciliation run: full-snapshot mode (`rpkiviews`, observation set and
dump time) or event-stream mode (`rpkiflutter`, event list). -/
inductive Run
  | snap (n : List VRP) (t : Nat)
  | fl (evs : List Ev)
deriving Repr

/-- Apply one reconciliation run to the store. -/
def applyRun (s : Store) : Run → Store
  | .snap n t => runViews s n t
  | .fl evs => runFlutter s evs

/-- Apply a sequence of reconciliation runs starting from the empty store. -/
def runSeq (rs : List Run) : Store :=
  rs.foldl applyRun emptyStore

/-! ### Query / validation engine (`api/rpki-history-api.py`) -/

/-- The result of `get_rpki_status`, including the `reason.code` for the two
Invalid outcomes. -/
inductive RpkiStatus
  | notFound
  | valid
  | invalidMoreSpecific
  | invalidNoMatchingOrigin
deriving DecidableEq, Repr

/-- The `for vrp in vrps` loop of `get_rpki_status`, with the
`same_origin_asn_found` flag threaded through. -/
def statusLoop (plen asn : Nat) : List VRP → Bool → RpkiStatus
  | [], found =>
      if found then .invalidMoreSpecific else .invalidNoMatchingOrigin
  | v :: rest, found =>
      if v.asn = 0 ∨ v.asn ≠ asn then statusLoop plen asn rest found
      else if plen ≤ v.max_length then .valid
      else statusLoop plen asn rest true

/-- `get_rpki_status` as a function of the covering VRP set: `NotFound` on an
empty set, otherwise the RFC 6811 loop. -/
def getRpkiStatus (vrps : List VRP) (plen asn : Nat) : RpkiStatus :=
  if vrps = [] then .notFound else statusLoop plen asn vrps false

/-- Modelled from the spec: the `dump_time_range` database view read by
`get_available_dump_time_range` is not part of the repository sources; per
spec §4.1 it returns the `(earliest, latest)` bounds of queryable history
derived from the ingestion metadata, or `(none, none)` when no dump exists. -/
def dumpTimeRange (s : Store) : Option (Nat × Nat) :=
  match s.meta.map Meta.dump_time with
  | [] => none
  | x :: xs => some (xs.foldl Nat.min x, xs.foldl Nat.max x)

/-- Supernet-or-equal containment `prefix >>= %s`: the row's prefix is equal to
or less specific than the queried prefix. -/
def pfxCovers (p q : Pfx) : Bool :=
  p.len ≤ q.len && q.addr / 2 ^ (32 - p.len) == p.addr / 2 ^ (32 - p.len)

/-- `get_covering_vrps_for_prefix_at_time`:
`SELECT * FROM vrps WHERE prefix >>= %s AND visible @> %s`. -/
def coveringAt (s : Store) (q : Pfx) (t : Nat) : List Rec :=
  s.recs.filter (fun r => pfxCovers r.vrp.pfx q && r.visible.containsT t)

/-- Range overlap `visible && %s` against the query range
`Range(timestamp_start, timestamp_end, '[]')` where either side may be
unbounded. -/
def Visible.overlapsRange (v : Visible) (qlo qhi : Option Nat) : Bool :=
  (match qhi with
    | some h => v.lower ≤ h
    | none => true) &&
  (match v.upper, qlo with
    | some u, some lo => lo ≤ u
    | _, _ => true)

/-- Sort key for `ORDER BY visible`: ranges ordered by lower bound, unbounded
upper bound last. -/
def visibleLE (a b : Visible) : Bool :=
  a.lower < b.lower || (a.lower == b.lower &&
    (match a.upper, b.upper with
      | _, none => true
      | none, some _ => false
      | some ua, some ub => ua ≤ ub))

/-- Insertion sort of the result rows by their `visible` range. -/
def sortByVisible : List Rec → List Rec
  | [] => []
  | r :: rest => insertByVisible r (sortByVisible rest)
where
  insertByVisible (r : Rec) : List Rec → List Rec
    | [] => [r]
    | x :: xs =>
        if visibleLE r.visible x.visible then r :: x :: xs
        else x :: insertByVisible r xs

/-- `get_covering_vrps_for_prefix_within_timerange`:
`SELECT * FROM vrps WHERE prefix >>= %s AND visible && %s ORDER BY visible`. -/
def coveringInRange (s : Store) (q : Pfx) (qlo qhi : Option Nat) : List Rec :=
  sortByVisible
    (s.recs.filter (fun r => pfxCovers r.vrp.pfx q && r.visible.overlapsRange qlo qhi))

/-- One element of the JSON response of the `/vrp` endpoint: the VRP identity
with the formatted `visible: {from, to}` object. -/
structure OutVrp where
  vrp : VRP
  visFrom : Nat
  visTo : Nat
deriving DecidableEq, Repr

/-- The error responses `VRPResource.on_get` can raise. -/
inductive ApiErr
  | badRequest
  | notFound
  | internalError
deriving DecidableEq, Repr

/-- The query parameters of a `/vrp` request after prefix parsing:
`timestamp`, `timestamp__gte`, `timestamp__lte`. -/
structure VrpParams where
  pfx : Pfx
  ts? : Option Nat
  gte? : Option Nat
  lte? : Option Nat

/-- The serialization loop at the end of `VRPResource.on_get`: an open
`visible` range is reported with `to` equal to the latest dump time. -/
def formatVrps (latest : Nat) (rows : List Rec) : List OutVrp :=
  rows.map (fun r =>
    ⟨r.vrp, r.visible.lower,
      match r.visible.upper with
      | some u => u
      | none => latest⟩)

/-- `VRPResource.on_get` after parameter parsing: mutually exclusive parameter
check, the three query branches with their out-of-range checks, and response
formatting. -/
def vrpOnGet (s : Store) (p : VrpParams) : Except ApiErr (List OutVrp) :=
  if p.ts?.isSome ∧ (p.gte?.isSome ∨ p.lte?.isSome) then
    .error .badRequest
  else
    match p.ts? with
    | some ts =>
        match dumpTimeRange s with
        | none => .error .notFound
        | some (earliest, latest) =>
            if ts < earliest ∨ ts > latest then .error .notFound
            else .ok (formatVrps latest (coveringAt s p.pfx ts))
    | none =>
        if p.gte?.isSome ∨ p.lte?.isSome then
          match dumpTimeRange s with
          | none => .error .notFound
          | some (earliest, latest) =>
              if (∃ a, p.gte? = some a ∧ a < earliest) ∨
                  (∃ b, p.lte? = some b ∧ b > latest) then
                .error .notFound
              else .ok (formatVrps latest (coveringInRange s p.pfx p.gte? p.lte?))
        else
          match dumpTimeRange s with
          | none => .error .internalError
          | some (_, latest) => .ok (formatVrps latest (coveringAt s p.pfx latest))

/-! ### Invariant predicates -/

/-- Two `visible` ranges have no common point. -/
def noOverlap (a b : Visible) : Prop :=
  ∀ t, ¬(a.containsT t = true ∧ b.containsT t = true)

/-- Two rows are separated: if they carry the same VRP identity, their
visibility intervals do not overlap. -/
def Rec.sepFrom (r1 r2 : Rec) : Prop :=
  r1.vrp = r2.vrp → noOverlap r1.visible r2.visible

/-- The claimed store invariant: per VRP identity, stored intervals are
pairwise non-overlapping and at most one of them is open. -/
def StoreInv (s : Store) : Prop :=
  s.recs.Pairwise Rec.sepFrom ∧
  s.recs.Pairwise (fun a b =>
    a.vrp = b.vrp → ¬(a.visible.upper = none ∧ b.visible.upper = none))

/-- A row is bounded by the latest dump time `l`: its lower bound is at most
`l`, and a closed upper bound is between the lower bound and `l`. -/
def recBounded (l : Nat) (r : Rec) : Prop :=
  r.visible.lower ≤ l ∧
  ∀ u, r.visible.upper = some u → r.visible.lower ≤ u ∧ u ≤ l

/-- Well-formedness of a store: separated rows, unique ids below the sequence
counter, and all interval endpoints bounded by the latest dump time (an empty
metadata table forces an empty row table). -/
def WF (s : Store) : Prop :=
  s.recs.Pairwise Rec.sepFrom ∧
  (s.recs.map Rec.id).Nodup ∧
  (∀ r ∈ s.recs, r.id < s.nextId) ∧
  (match latestTs s with
   | none => s.recs = []
   | some l => ∀ r ∈ s.recs, recBounded l r)

/-- `t` is strictly beyond the (optional) latest dump time. -/
def ltNext (l? : Option Nat) (t : Nat) : Prop :=
  match l? with
  | none => True
  | some l => l < t

instance (l? : Option Nat) (t : Nat) : Decidable (ltNext l? t) := by
  cases l? <;> simp only [ltNext] <;> infer_instance

/-- A run is admissible at a store: a full-snapshot observation is a set
(duplicate-free) with a dump time strictly after the latest ingested dump; an
event stream is nonempty with strictly increasing timestamps, all strictly
after the latest ingested dump. -/
def RunOK (s : Store) : Run → Prop
  | .snap n t => n.Nodup ∧ ltNext (latestTs s) t
  | .fl evs => evs ≠ [] ∧ evs.Pairwise (fun a b => a.ts < b.ts) ∧
      ∀ e ∈ evs, ltNext (latestTs s) e.ts

instance RunOK.dec (s : Store) : (r : Run) → Decidable (RunOK s r)
  | .snap n t => by unfold RunOK; infer_instance
  | .fl evs => by unfold RunOK; infer_instance

/-- All timestamps already written into the working collections of an
event-stream run are strictly below `t`. -/
def StampsLt (st : FlState) (t : Nat) : Prop :=
  (∀ p ∈ st.update_rows, ∀ u, p.2.upper = some u → u < t) ∧
  (∀ p ∈ st.insert_vrps, p.2 < t) ∧
  (∀ p ∈ st.insert_rows, p.2.lower < t ∧ ∀ u, p.2.upper = some u → u < t)

/-- The invariant maintained over the working collections while folding
`flutterStep` over the event stream of one `RPKIFlutter.process_vrps` run.
`l?` is the latest dump time loaded at the start of the run and `d0` the
loaded active-set dictionary. -/
structure MidInv (l? : Option Nat) (d0 : List (VRP × (Nat × Visible)))
    (st : FlState) : Prop where
  lat_sub : ∀ x ∈ st.latest, x ∈ d0
  lat_keys : (mkeys st.latest).Nodup
  d0_split : ∀ x ∈ d0, x ∈ st.latest ∨ (x.1 ∉ mkeys st.latest ∧
      ∃ e, (x.2.1, Visible.mk x.2.2.lower (some e)) ∈ st.update_rows)
  upd_src : ∀ p ∈ st.update_rows, ∃ v vis e, (v, (p.1, vis)) ∈ d0 ∧
      p.2 = Visible.mk vis.lower (some e) ∧ v ∉ mkeys st.latest ∧
      ∀ l, l? = some l → l < e
  upd_ids : (st.update_rows.map Prod.fst).Nodup
  pend_keys : (mkeys st.insert_vrps).Nodup
  pend_inv : ∀ p ∈ st.insert_vrps,
      (∀ l, l? = some l → l < p.2) ∧ p.1 ∉ mkeys st.latest ∧
      (∀ q ∈ st.update_rows, ∀ vis, (p.1, (q.1, vis)) ∈ d0 →
        ∀ u, q.2.upper = some u → u < p.2) ∧
      (∀ q ∈ st.insert_rows, q.1 = p.1 → ∀ u, q.2.upper = some u → u < p.2)
  ins_inv : ∀ p ∈ st.insert_rows,
      (∃ a b, p.2 = Visible.mk a (some b) ∧ a ≤ b ∧ ∀ l, l? = some l → l < a) ∧
      p.1 ∉ mkeys st.latest ∧
      (∀ q ∈ st.update_rows, ∀ vis, (p.1, (q.1, vis)) ∈ d0 →
        ∀ u, q.2.upper = some u → u < p.2.lower)
  ins_pair : st.insert_rows.Pairwise
      (fun p q => p.1 = q.1 → ∀ u, p.2.upper = some u → u < q.2.lower)

/-- Every run of the sequence is admissible at the store it is applied to. -/
def OKSeq : Store → List Run → Prop
  | _, [] => True
  | s, r :: rs => RunOK s r ∧ OKSeq (applyRun s r) rs

instance OKSeq.dec : (s : Store) → (rs : List Run) → Decidable (OKSeq s rs)
  | _, [] => .isTrue trivial
  | s, r :: rs =>
      have := OKSeq.dec (applyRun s r) rs
      by unfold OKSeq; infer_instance

/-! ## Theorems

### Association-list map lemmas -/

theorem mlookup_mem {κ α : Type} [DecidableEq κ] {m : List (κ × α)} {k : κ} {a : α}
    (h : mlookup m k = some a) : (k, a) ∈ m := by
  induction m with
  | nil => cases h
  | cons p rest ih =>
    rw [mlookup] at h
    split at h
    · rename_i hk
      obtain ⟨p1, p2⟩ := p
      obtain rfl : p2 = a := by injection h
      obtain rfl : p1 = k := hk
      exact List.mem_cons_self _ _
    · exact List.mem_cons_of_mem _ (ih h)

theorem mlookup_eq_none_iff {κ α : Type} [DecidableEq κ] {m : List (κ × α)} {k : κ} :
    mlookup m k = none ↔ k ∉ mkeys m := by
  induction m with
  | nil => simp [mlookup, mkeys]
  | cons p rest ih =>
    rw [mlookup, mkeys]
    split
    · rename_i hk
      subst hk
      simp
    · rename_i hk
      simp only [List.map_cons, List.mem_cons, not_or]
      rw [ih]
      constructor
      · intro h
        exact ⟨fun he => hk he.symm, h⟩
      · intro h
        exact h.2

theorem mem_mkeys_of_mem {κ α : Type} {m : List (κ × α)} {x : κ × α} (h : x ∈ m) :
    x.1 ∈ mkeys m :=
  List.mem_map_of_mem Prod.fst h

theorem mlookup_isSome_iff {κ α : Type} [DecidableEq κ] {m : List (κ × α)} {k : κ} :
    (mlookup m k).isSome = true ↔ k ∈ mkeys m := by
  constructor
  · intro h
    rw [Option.isSome_iff_exists] at h
    obtain ⟨a, ha⟩ := h
    exact mem_mkeys_of_mem (mlookup_mem ha)
  · intro h
    cases hl : mlookup m k with
    | some a => rfl
    | none => exact absurd h (mlookup_eq_none_iff.1 hl)

theorem mem_mlookup {κ α : Type} [DecidableEq κ] {m : List (κ × α)} {k : κ} {a : α}
    (hnd : (mkeys m).Nodup) (h : (k, a) ∈ m) : mlookup m k = some a := by
  induction m with
  | nil => cases h
  | cons p rest ih =>
    rw [mkeys, List.map_cons, List.nodup_cons] at hnd
    rcases List.mem_cons.1 h with rfl | h'
    · rw [mlookup, if_pos rfl]
    · rw [mlookup]
      split
      · rename_i hk
        subst hk
        exact absurd (List.mem_map_of_mem Prod.fst h') hnd.1
      · exact ih hnd.2 h'

theorem mem_merase {κ α : Type} [DecidableEq κ] {m : List (κ × α)} {k : κ}
    {x : κ × α} : x ∈ merase m k ↔ x ∈ m ∧ x.1 ≠ k := by
  induction m with
  | nil => simp [merase]
  | cons p rest ih =>
    rw [merase]
    split
    · rename_i hk
      subst hk
      rw [ih]
      constructor
      · rintro ⟨h1, h2⟩
        exact ⟨List.mem_cons_of_mem _ h1, h2⟩
      · rintro ⟨h1, h2⟩
        rcases List.mem_cons.1 h1 with rfl | h1'
        · exact absurd rfl h2
        · exact ⟨h1', h2⟩
    · rename_i hk
      simp only [List.mem_cons, ih]
      constructor
      · rintro (rfl | ⟨h1, h2⟩)
        · exact ⟨Or.inl rfl, fun he => hk (he ▸ rfl)⟩
        · exact ⟨Or.inr h1, h2⟩
      · rintro ⟨rfl | h1, h2⟩
        · exact Or.inl rfl
        · exact Or.inr ⟨h1, h2⟩

theorem merase_eq_self {κ α : Type} [DecidableEq κ] {m : List (κ × α)} {k : κ}
    (h : k ∉ mkeys m) : merase m k = m := by
  induction m with
  | nil => rfl
  | cons p rest ih =>
    rw [mkeys, List.map_cons, List.mem_cons, not_or] at h
    rw [merase, if_neg (fun he => h.1 he.symm), ih h.2]

theorem mkeys_merase_sublist {κ α : Type} [DecidableEq κ] (m : List (κ × α)) (k : κ) :
    (mkeys (merase m k)).Sublist (mkeys m) := by
  induction m with
  | nil => simp [merase, mkeys]
  | cons p rest ih =>
    rw [merase]
    split
    · exact ih.trans (by simp [mkeys])
    · simpa [mkeys] using ih.cons₂ p.1

theorem mkeys_merase_nodup {κ α : Type} [DecidableEq κ] {m : List (κ × α)} {k : κ}
    (h : (mkeys m).Nodup) : (mkeys (merase m k)).Nodup :=
  (mkeys_merase_sublist m k).nodup h

theorem not_mem_mkeys_merase {κ α : Type} [DecidableEq κ] (m : List (κ × α)) (k : κ) :
    k ∉ mkeys (merase m k) := by
  intro h
  rw [mkeys, List.mem_map] at h
  obtain ⟨x, hx, hk⟩ := h
  exact absurd hk (mem_merase.1 hx).2

theorem mem_mkeys_merase_of_ne {κ α : Type} [DecidableEq κ] {m : List (κ × α)}
    {k k' : κ} (hne : k' ≠ k) (h : k' ∈ mkeys m) : k' ∈ mkeys (merase m k) := by
  rw [mkeys, List.mem_map] at h ⊢
  obtain ⟨x, hx, hk⟩ := h
  exact ⟨x, mem_merase.2 ⟨hx, hk ▸ hne⟩, hk⟩

theorem mem_rowsToDict {rows : List Rec} {x : VRP × (Nat × Visible)}
    (h : x ∈ rowsToDict rows) : ∃ r ∈ rows, x = (r.vrp, (r.id, r.visible)) := by
  suffices hgen : ∀ (m : List (VRP × (Nat × Visible))),
      x ∈ rows.foldl (fun m r => minsert m r.vrp (r.id, r.visible)) m →
      x ∈ m ∨ ∃ r ∈ rows, x = (r.vrp, (r.id, r.visible)) by
    rcases hgen [] h with h' | h'
    · cases h'
    · exact h'
  clear h
  induction rows with
  | nil => intro m h; exact Or.inl h
  | cons r rest ih =>
    intro m h
    rw [List.foldl_cons] at h
    rcases ih _ h with h' | h'
    · rw [minsert, List.mem_append] at h'
      rcases h' with h'' | h''
      · exact Or.inl (mem_merase.1 h'').1
      · rcases List.mem_singleton.1 h'' with rfl
        exact Or.inr ⟨r, List.mem_cons_self _ _, rfl⟩
    · obtain ⟨r', hr', he⟩ := h'
      exact Or.inr ⟨r', List.mem_cons_of_mem _ hr', he⟩

theorem rowsToDict_eq_map {rows : List Rec}
    (hnd : (rows.map Rec.vrp).Nodup) :
    rowsToDict rows = rows.map (fun r => (r.vrp, (r.id, r.visible))) := by
  suffices hgen : ∀ (m : List (VRP × (Nat × Visible))),
      (∀ r ∈ rows, r.vrp ∉ mkeys m) → (rows.map Rec.vrp).Nodup →
      rows.foldl (fun m r => minsert m r.vrp (r.id, r.visible)) m =
        m ++ rows.map (fun r => (r.vrp, (r.id, r.visible))) by
    simpa using hgen [] (by simp [mkeys]) hnd
  clear hnd
  induction rows with
  | nil => intro m _ _; simp
  | cons r rest ih =>
    intro m hdisj hnd
    rw [List.map_cons, List.nodup_cons] at hnd
    rw [List.foldl_cons, minsert,
      merase_eq_self (hdisj r (List.mem_cons_self _ _)), ih]
    · simp
    · intro r' hr'
      rw [mkeys, List.map_append, List.mem_append, not_or]
      refine ⟨fun h => hdisj r' (List.mem_cons_of_mem _ hr') h, ?_⟩
      intro h
      have heq : r'.vrp = r.vrp := List.mem_singleton.1 (by simpa [mkeys] using h)
      exact hnd.1 (heq ▸ List.mem_map_of_mem Rec.vrp hr')
    · exact hnd.2

theorem mkeys_minsert {κ α : Type} [DecidableEq κ] (m : List (κ × α)) (k k' : κ)
    (v : α) : k' ∈ mkeys (minsert m k v) ↔ k' ∈ mkeys m ∨ k' = k := by
  rw [minsert, mkeys, List.map_append, List.mem_append]
  constructor
  · rintro (h | h)
    · exact Or.inl ((mkeys_merase_sublist m k).subset (by simpa [mkeys] using h))
    · simp only [List.map_cons, List.map_nil, List.mem_singleton] at h
      exact Or.inr h
  · rintro (h | rfl)
    · by_cases he : k' = k
      · right
        simp [he]
      · left
        simpa [mkeys] using mem_mkeys_merase_of_ne he h
    · right
      simp

theorem mlookup_rowsToDict_isSome {rows : List Rec} {v : VRP} :
    (mlookup (rowsToDict rows) v).isSome = true ↔ ∃ r ∈ rows, r.vrp = v := by
  rw [mlookup_isSome_iff]
  suffices hgen : ∀ (m : List (VRP × (Nat × Visible))),
      v ∈ mkeys (rows.foldl (fun m r => minsert m r.vrp (r.id, r.visible)) m) ↔
        v ∈ mkeys m ∨ ∃ r ∈ rows, r.vrp = v by
    rw [rowsToDict, hgen []]
    simp [mkeys]
  induction rows with
  | nil =>
    intro m
    simp
  | cons r rest ih =>
    intro m
    rw [List.foldl_cons, ih, mkeys_minsert]
    constructor
    · rintro ((h | h) | ⟨r', hr', he⟩)
      · exact Or.inl h
      · exact Or.inr ⟨r, List.mem_cons_self _ _, h.symm⟩
      · exact Or.inr ⟨r', List.mem_cons_of_mem _ hr', he⟩
    · rintro (h | ⟨r', hr', he⟩)
      · exact Or.inl (Or.inl h)
      · rcases List.mem_cons.1 hr' with rfl | hr''
        · exact Or.inl (Or.inr he.symm)
        · exact Or.inr ⟨r', hr'', he⟩

/-! ### Store-level lemmas -/

theorem containsT_iff {vis : Visible} {t : Nat} :
    vis.containsT t = true ↔ vis.lower ≤ t ∧ ∀ u, vis.upper = some u → t ≤ u := by
  rw [Visible.containsT, Bool.and_eq_true]
  cases vis.upper <;> simp

theorem sepFrom_symm {r1 r2 : Rec} (h : Rec.sepFrom r1 r2) : Rec.sepFrom r2 r1 := by
  intro he t ⟨h2, h1⟩
  exact h he.symm t ⟨h1, h2⟩

theorem filter_vrps_nodup {recs : List Rec} {l : Nat}
    (hsep : recs.Pairwise Rec.sepFrom) :
    ((recs.filter (fun r => r.visible.containsT l)).map Rec.vrp).Nodup := by
  have h1 : (recs.filter (fun r => r.visible.containsT l)).Pairwise Rec.sepFrom :=
    List.Pairwise.sublist (List.filter_sublist recs) hsep
  have h2 : (recs.filter (fun r => r.visible.containsT l)).Pairwise
      (fun a b => a.vrp ≠ b.vrp) := by
    refine List.Pairwise.imp_of_mem ?_ h1
    intro a b ha hb hs heq
    exact hs heq l ⟨(List.mem_filter.1 ha).2, (List.mem_filter.1 hb).2⟩
  exact List.pairwise_map.2 h2

/-- Under the separation invariant, the loaded active set dictionary is just
the list of rows whose interval contains the latest dump time. -/
theorem getLatestVrps_eq {s : Store} {l : Nat}
    (hsep : s.recs.Pairwise Rec.sepFrom) (hl : latestTs s = some l) :
    getLatestVrps s =
      (s.recs.filter (fun r => r.visible.containsT l)).map
        (fun r => (r.vrp, (r.id, r.visible))) := by
  unfold getLatestVrps
  rw [hl]
  exact rowsToDict_eq_map (filter_vrps_nodup hsep)

theorem find?_id_eq_some {upd : List (Nat × Visible)} {i : Nat} {nv : Visible}
    (hnd : (upd.map Prod.fst).Nodup) (hm : (i, nv) ∈ upd) :
    upd.find? (fun p => decide (p.1 = i)) = some (i, nv) := by
  induction upd with
  | nil => cases hm
  | cons p rest ih =>
    rw [List.map_cons, List.nodup_cons] at hnd
    rcases List.mem_cons.1 hm with rfl | hm'
    · rw [List.find?_cons_of_pos _ (by simp)]
    · rw [List.find?_cons_of_neg, ih hnd.2 hm']
      simp only [decide_eq_true_eq]
      intro he
      exact hnd.1 (he ▸ List.mem_map_of_mem Prod.fst hm')

theorem closeOne_eq_some {upd : List (Nat × Visible)} {r : Rec} {p : Nat × Visible}
    (hfind : upd.find? (fun q => decide (q.1 = r.id)) = some p) :
    closeOne upd r = { r with visible := p.2 } := by
  unfold closeOne
  rw [hfind]

theorem closeOne_eq_none {upd : List (Nat × Visible)} {r : Rec}
    (hfind : upd.find? (fun q => decide (q.1 = r.id)) = none) :
    closeOne upd r = r := by
  unfold closeOne
  rw [hfind]

theorem runViews_recs (s : Store) (n : List VRP) (t : Nat) :
    (runViews s n t).recs =
      applyClose s.recs ((viewsDiff (getLatestVrps s) n).deleted.map
        (fun p => (p.2.1, Visible.mk p.2.2.lower (latestTs s)))) ++
      withIds s.nextId ((viewsDiff (getLatestVrps s) n).inserted.map
        (fun v => (v, Visible.mk t none))) := rfl

theorem runViews_meta (s : Store) (n : List VRP) (t : Nat) :
    (runViews s n t).meta =
      s.meta ++ [⟨t, (viewsDiff (getLatestVrps s) n).deleted.length,
        (viewsDiff (getLatestVrps s) n).unchanged.length,
        (viewsDiff (getLatestVrps s) n).inserted.length⟩] := rfl

theorem mem_deleted_iff {latest : List (VRP × (Nat × Visible))} {n : List VRP}
    {x : VRP × (Nat × Visible)} :
    x ∈ (viewsDiff latest n).deleted ↔ x ∈ latest ∧ x.1 ∉ n := by
  simp [viewsDiff, List.mem_filter]

/-! ### C2: which timestamp closes a deleted VRP -/

/-- C2 counterexample: a VRP active (open) since dump 10 and absent from the
next full-snapshot observation with `dump_time = 20` is closed with upper
bound 10 (`self.latest_ts`, the previous dump time) — no stored interval ends
at the new observation's `dump_time` 20, contradicting the claim. -/
theorem c2_counterexample :
    (runSeq [.snap [⟨⟨10, 8⟩, 65001, 24⟩] 10, .snap [] 20]).recs =
      [⟨0, ⟨⟨10, 8⟩, 65001, 24⟩, ⟨10, some 10⟩⟩] ∧
    ∀ r ∈ (runSeq [.snap [⟨⟨10, 8⟩, 65001, 24⟩] 10, .snap [] 20]).recs,
      r.visible.upper ≠ some 20 := by
  refine ⟨rfl, ?_⟩
  decide

/-- C2 amended: in a full-snapshot run, every VRP identity in the loaded
active set but absent from the new observation has its record closed with
`end` equal to the *previous* latest dump time `self.latest_ts` (the time it
was last seen), inclusive — not the new observation's `dump_time`. -/
theorem c2_amended_close_at_prev_latest (s : Store) (n : List VRP) (t l : Nat)
    (v : VRP) (id : Nat) (vis : Visible) (hwf : WF s) (hl : latestTs s = some l)
    (hmem : (v, (id, vis)) ∈ getLatestVrps s) (hnot : v ∉ n) :
    ∃ r ∈ (runViews s n t).recs, r.id = id ∧ r.vrp = v ∧
      r.visible = ⟨vis.lower, some l⟩ := by
  obtain ⟨hsep, hids, -, -⟩ := hwf
  rw [getLatestVrps_eq hsep hl, List.mem_map] at hmem
  obtain ⟨r0, hr0f, he⟩ := hmem
  obtain ⟨h1, h2, h3⟩ : r0.vrp = v ∧ r0.id = id ∧ r0.visible = vis := by
    refine ⟨congrArg Prod.fst he, ?_, ?_⟩
    · exact congrArg (fun x => x.2.1) he
    · exact congrArg (fun x => x.2.2) he
  subst h1 h2 h3
  have hr0 : r0 ∈ s.recs := (List.mem_filter.1 hr0f).1
  have hdel : (r0.vrp, (r0.id, r0.visible)) ∈
      (viewsDiff (getLatestVrps s) n).deleted := by
    rw [mem_deleted_iff, getLatestVrps_eq hsep hl]
    exact ⟨List.mem_map_of_mem _ hr0f, hnot⟩
  have hupd : (r0.id, Visible.mk r0.visible.lower (some l)) ∈
      (viewsDiff (getLatestVrps s) n).deleted.map
        (fun p => (p.2.1, Visible.mk p.2.2.lower (latestTs s))) := by
    rw [hl] at *
    exact List.mem_map_of_mem _ hdel
  have hnodupd : (((viewsDiff (getLatestVrps s) n).deleted.map
      (fun p => (p.2.1, Visible.mk p.2.2.lower (latestTs s)))).map Prod.fst).Nodup := by
    have hsub : (((viewsDiff (getLatestVrps s) n).deleted.map
        (fun p => (p.2.1, Visible.mk p.2.2.lower (latestTs s)))).map Prod.fst).Sublist
        (s.recs.map Rec.id) := by
      rw [List.map_map]
      have h4 : (viewsDiff (getLatestVrps s) n).deleted.Sublist (getLatestVrps s) := by
        simp only [viewsDiff]
        exact List.filter_sublist _
      have h5 := h4.map (Prod.fst ∘ (fun p : VRP × (Nat × Visible) =>
        (p.2.1, Visible.mk p.2.2.lower (latestTs s))))
      refine h5.trans ?_
      rw [getLatestVrps_eq hsep hl, List.map_map]
      exact (@List.filter_sublist _ (fun r => r.visible.containsT l) s.recs).map Rec.id
    exact hsub.nodup hids
  have hfind := find?_id_eq_some hnodupd hupd
  refine ⟨{r0 with visible := ⟨r0.visible.lower, some l⟩}, ?_, rfl, rfl, rfl⟩
  rw [runViews_recs, List.mem_append]
  left
  rw [applyClose, List.mem_map]
  exact ⟨r0, hr0, closeOne_eq_some hfind⟩

/-- C2 amended witness: one active VRP open since 5, previous dump at 10, new
observation empty at dump time 20. -/
theorem c2_amended_witness :
    ∃ r ∈ (runViews ⟨[⟨0, ⟨⟨10, 8⟩, 65001, 24⟩, ⟨5, none⟩⟩], [⟨10, 0, 0, 1⟩], 1⟩
      [] 20).recs, r.id = 0 ∧ r.vrp = ⟨⟨10, 8⟩, 65001, 24⟩ ∧
      r.visible = ⟨(⟨5, none⟩ : Visible).lower, some 10⟩ := by
  refine c2_amended_close_at_prev_latest _ [] 20 10 _ 0 ⟨5, none⟩ ?_ rfl ?_ ?_
  · refine ⟨?_, by decide, by decide, ?_⟩
    · exact List.pairwise_singleton _ _
    · show ∀ r ∈ [Rec.mk 0 ⟨⟨10, 8⟩, 65001, 24⟩ ⟨5, none⟩], recBounded 10 r
      intro r hr
      rcases List.mem_singleton.1 hr with rfl
      exact ⟨by decide, by intro u hu; cases hu⟩
  · show _ ∈ getLatestVrps _
    decide
  · decide

/-! ### C5: idempotence of full-snapshot reconciliation -/

theorem mem_withIds_inv {r : Rec} :
    ∀ {base : Nat} {l : List (VRP × Visible)}, r ∈ withIds base l →
      ∃ p ∈ l, r.vrp = p.1 ∧ r.visible = p.2 ∧ base ≤ r.id ∧ r.id < base + l.length := by
  intro base l
  induction l generalizing base with
  | nil => intro h; cases h
  | cons q rest ih =>
    intro h
    rcases List.mem_cons.1 h with rfl | h'
    · refine ⟨q, List.mem_cons_self _ _, rfl, rfl, Nat.le_refl _, ?_⟩
      simp only [List.length_cons]
      omega
    · obtain ⟨p, hp, h1, h2, h3, h4⟩ := ih h'
      refine ⟨p, List.mem_cons_of_mem _ hp, h1, h2, by omega, ?_⟩
      simp only [List.length_cons]
      omega

theorem mem_withIds {p : VRP × Visible} :
    ∀ {base : Nat} {l : List (VRP × Visible)}, p ∈ l →
      ∃ id, Rec.mk id p.1 p.2 ∈ withIds base l := by
  intro base l
  induction l generalizing base with
  | nil => intro h; cases h
  | cons q rest ih =>
    intro h
    rcases List.mem_cons.1 h with rfl | h'
    · exact ⟨base, List.mem_cons_self _ _⟩
    · obtain ⟨id, hid⟩ := ih h'
      exact ⟨id, List.mem_cons_of_mem _ hid⟩

theorem applyClose_nil (recs : List Rec) : applyClose recs [] = recs := by
  rw [applyClose]
  conv_rhs => rw [← List.map_id recs]
  rfl

theorem listMax?_append_singleton (xs : List Nat) (x : Nat) :
    listMax? (xs ++ [x]) =
      some (match listMax? xs with
        | none => x
        | some m => Nat.max m x) := by
  cases xs with
  | nil => rfl
  | cons a rest =>
    show some (List.foldl Nat.max a (rest ++ [x])) = _
    rw [List.foldl_append]
    rfl

theorem latestTs_runViews (s : Store) (n : List VRP) (t : Nat)
    (ht : ltNext (latestTs s) t) : latestTs (runViews s n t) = some t := by
  unfold latestTs at ht ⊢
  rw [runViews_meta, List.map_append, List.map_singleton, listMax?_append_singleton]
  revert ht
  cases h : listMax? (s.meta.map Meta.dump_time) with
  | none =>
    intro _
    rfl
  | some m =>
    intro ht
    have ht2 : m < t := ht
    show some (Nat.max m t) = some t
    exact congrArg some (Nat.max_eq_right (Nat.le_of_lt ht2))

/-- The core of idempotence: any row of the updated store whose interval still
contains the new dump time `t` carries an identity from the new observation. -/
theorem runViews_contains_vrp_mem (s : Store) (n : List VRP) (t : Nat)
    (hwf : WF s) (ht : ltNext (latestTs s) t) {r : Rec}
    (hr : r ∈ (runViews s n t).recs) (hc : r.visible.containsT t = true) :
    r.vrp ∈ n := by
  obtain ⟨hsep, hids, -, hbnd⟩ := hwf
  rw [runViews_recs, List.mem_append] at hr
  rcases hr with hr | hr
  · -- a (possibly closed) pre-existing row
    rw [applyClose, List.mem_map] at hr
    obtain ⟨r0, hr0, htr⟩ := hr
    cases hl : latestTs s with
    | none =>
      rw [hl] at hbnd
      rw [hbnd] at hr0
      cases hr0
    | some l =>
      rw [hl] at hbnd
      rw [hl] at ht
      have ht : l < t := ht
      cases hfind : ((viewsDiff (getLatestVrps s) n).deleted.map
          (fun p => (p.2.1, Visible.mk p.2.2.lower (latestTs s)))).find?
            (fun q => decide (q.1 = r0.id)) with
      | some p =>
        rw [closeOne_eq_some hfind] at htr
        subst htr
        have hpmem := List.mem_of_find?_eq_some hfind
        rw [List.mem_map] at hpmem
        obtain ⟨d, -, hdp⟩ := hpmem
        have hup : p.2 = Visible.mk d.2.2.lower (latestTs s) :=
          (congrArg Prod.snd hdp).symm
        rw [containsT_iff] at hc
        have hT := hc.2 l (by
          rw [show ({ r0 with visible := p.2 } : Rec).visible = p.2 from rfl, hup]
          exact hl)
        omega
      | none =>
        rw [closeOne_eq_none hfind] at htr
        subst htr
        cases hu : r0.visible.upper with
        | some u =>
          rw [containsT_iff] at hc
          have h1 := hc.2 u hu
          have h2 := ((hbnd r0 hr0).2 u hu).2
          omega
        | none =>
          -- an untouched open row: it is in the loaded active set, so its
          -- identity must be in `n`, else it would have been closed
          by_contra hnot
          have hcl : r0.visible.containsT l = true := by
            rw [containsT_iff]
            exact ⟨(hbnd r0 hr0).1, fun u hu2 => by rw [hu] at hu2; cases hu2⟩
          have hdict : (r0.vrp, (r0.id, r0.visible)) ∈ getLatestVrps s := by
            rw [getLatestVrps_eq hsep hl]
            exact List.mem_map_of_mem _ (List.mem_filter.2 ⟨hr0, hcl⟩)
          have hdel : (r0.vrp, (r0.id, r0.visible)) ∈
              (viewsDiff (getLatestVrps s) n).deleted :=
            mem_deleted_iff.2 ⟨hdict, hnot⟩
          have hmem' : (r0.id, Visible.mk r0.visible.lower (latestTs s)) ∈
              (viewsDiff (getLatestVrps s) n).deleted.map
                (fun p => (p.2.1, Visible.mk p.2.2.lower (latestTs s))) :=
            List.mem_map_of_mem _ hdel
          rw [List.find?_eq_none] at hfind
          exact hfind _ hmem' (by simp)
  · obtain ⟨p, hp, h1, -, -⟩ := mem_withIds_inv hr
    rw [List.mem_map] at hp
    obtain ⟨v', hv', rfl⟩ := hp
    rw [h1]
    exact List.mem_of_mem_filter hv'

/-- Conversely, when the loaded active set consists of open rows only, every
identity of the new observation has a row containing `t` after the run. -/
theorem runViews_mem_contains (s : Store) (n : List VRP) (t : Nat)
    (hwf : WF s) (ht : ltNext (latestTs s) t)
    (hopen : ∀ r ∈ s.recs, ∀ l, latestTs s = some l →
      r.visible.containsT l = true → r.visible.upper = none)
    {v : VRP} (hv : v ∈ n) :
    ∃ r ∈ (runViews s n t).recs, r.visible.containsT t = true ∧ r.vrp = v := by
  obtain ⟨hsep, hids, -, hbnd⟩ := hwf
  by_cases hn : (mlookup (getLatestVrps s) v).isSome = true
  · rw [Option.isSome_iff_exists] at hn
    obtain ⟨⟨id, vis⟩, hlk⟩ := hn
    have hmem := mlookup_mem hlk
    cases hl : latestTs s with
    | none =>
      have hnil : getLatestVrps s = [] := by
        unfold getLatestVrps
        rw [hl]
      rw [hnil] at hmem
      cases hmem
    | some l =>
      rw [getLatestVrps_eq hsep hl, List.mem_map] at hmem
      obtain ⟨r0, hr0f, he⟩ := hmem
      have hvrp : r0.vrp = v := congrArg Prod.fst he
      have hr0 : r0 ∈ s.recs := (List.mem_filter.1 hr0f).1
      have hcl : r0.visible.containsT l = true := (List.mem_filter.1 hr0f).2
      have hu : r0.visible.upper = none := hopen r0 hr0 l hl hcl
      rw [hl] at hbnd
      rw [hl] at ht
      have ht2 : l < t := ht
      have hfind : ((viewsDiff (getLatestVrps s) n).deleted.map
          (fun p => (p.2.1, Visible.mk p.2.2.lower (latestTs s)))).find?
            (fun q => decide (q.1 = r0.id)) = none := by
        rw [List.find?_eq_none]
        rintro ⟨i, nv⟩ hmem2 hdec
        have hieq : i = r0.id := of_decide_eq_true hdec
        rw [List.mem_map] at hmem2
        obtain ⟨d, hd, hproj⟩ := hmem2
        rw [mem_deleted_iff] at hd
        obtain ⟨hddict, hdn⟩ := hd
        rw [getLatestVrps_eq hsep hl, List.mem_map] at hddict
        obtain ⟨r1, hr1f, hd2⟩ := hddict
        have h5 : d.2.1 = i := congrArg Prod.fst hproj
        have h6 : r1.id = d.2.1 := (congrArg (fun x => x.2.1) hd2)
        have h7 : r1 = r0 := List.inj_on_of_nodup_map hids
          (List.mem_of_mem_filter hr1f) hr0 (by rw [h6, h5, hieq])
        have h8 : d.1 = r1.vrp := (congrArg Prod.fst hd2).symm
        exact hdn (by rw [h8, h7, hvrp]; exact hv)
      refine ⟨r0, ?_, ?_, hvrp⟩
      · rw [runViews_recs, List.mem_append]
        left
        rw [applyClose, List.mem_map]
        exact ⟨r0, hr0, closeOne_eq_none hfind⟩
      · rw [containsT_iff]
        refine ⟨Nat.le_trans (hbnd r0 hr0).1 (Nat.le_of_lt ht2), ?_⟩
        intro u hu2
        rw [hu] at hu2
        cases hu2
  · have hvi : v ∈ (viewsDiff (getLatestVrps s) n).inserted := by
      simp only [viewsDiff]
      rw [List.mem_filter]
      refine ⟨hv, ?_⟩
      cases hmk : mlookup (getLatestVrps s) v with
      | none => rfl
      | some a => exact absurd (by rw [hmk]; rfl) hn
    have hp : (v, Visible.mk t none) ∈ (viewsDiff (getLatestVrps s) n).inserted.map
        (fun v => (v, Visible.mk t none)) := List.mem_map_of_mem _ hvi
    obtain ⟨id, hid⟩ := @mem_withIds _ s.nextId _ hp
    refine ⟨⟨id, v, ⟨t, none⟩⟩, ?_, ?_, rfl⟩
    · rw [runViews_recs, List.mem_append]
      right
      exact hid
    · rw [containsT_iff]
      exact ⟨Nat.le_refl t, fun u hu => by cases hu⟩

/-- After a full-snapshot run at a fresh dump time over an all-open active
set, the loaded active set of the next run holds exactly the identities of the
observation. -/
theorem runViews_active_iff (s : Store) (n : List VRP) (t : Nat)
    (hwf : WF s) (ht : ltNext (latestTs s) t)
    (hopen : ∀ r ∈ s.recs, ∀ l, latestTs s = some l →
      r.visible.containsT l = true → r.visible.upper = none) (v : VRP) :
    (mlookup (getLatestVrps (runViews s n t)) v).isSome = true ↔ v ∈ n := by
  have hl1 := latestTs_runViews s n t ht
  have heq : getLatestVrps (runViews s n t) =
      rowsToDict ((runViews s n t).recs.filter (fun r => r.visible.containsT t)) := by
    unfold getLatestVrps
    rw [hl1]
  rw [heq, mlookup_rowsToDict_isSome]
  constructor
  · rintro ⟨r, hrf, hrv⟩
    rw [List.mem_filter] at hrf
    exact hrv ▸ runViews_contains_vrp_mem s n t hwf ht hrf.1 hrf.2
  · intro hv
    obtain ⟨r, hr, hc, hrv⟩ := runViews_mem_contains s n t hwf ht hopen hv
    exact ⟨r, List.mem_filter.2 ⟨hr, hc⟩, hrv⟩

/-- C5: full-snapshot reconciliation is idempotent. Starting from a
well-formed store whose active set is all-open, with a duplicate-free
observation `n` at a dump time `t` past the stored history, a second run with
the same `n` and `t` computes `deleted = inserted = ∅` and `unchanged = n`,
leaves the stored rows (hence the active set) unchanged, and records the
metadata counts `(0, |n|, 0)`. -/
theorem c5_idempotent (s : Store) (n : List VRP) (t : Nat)
    (hwf : WF s) (hnd : n.Nodup) (ht : ltNext (latestTs s) t)
    (hopen : ∀ r ∈ s.recs, ∀ l, latestTs s = some l →
      r.visible.containsT l = true → r.visible.upper = none) :
    (viewsDiff (getLatestVrps (runViews s n t)) n).deleted = [] ∧
    (viewsDiff (getLatestVrps (runViews s n t)) n).unchanged = n ∧
    (viewsDiff (getLatestVrps (runViews s n t)) n).inserted = [] ∧
    (runViews (runViews s n t) n t).recs = (runViews s n t).recs ∧
    (runViews (runViews s n t) n t).meta =
      (runViews s n t).meta ++ [⟨t, 0, n.length, 0⟩] := by
  have hl1 := latestTs_runViews s n t ht
  have heq : getLatestVrps (runViews s n t) =
      rowsToDict ((runViews s n t).recs.filter (fun r => r.visible.containsT t)) := by
    unfold getLatestVrps
    rw [hl1]
  have hdel : (viewsDiff (getLatestVrps (runViews s n t)) n).deleted = [] := by
    simp only [viewsDiff]
    rw [List.filter_eq_nil_iff]
    intro x hx
    rw [heq] at hx
    obtain ⟨r, hrf, rfl⟩ := mem_rowsToDict hx
    rw [List.mem_filter] at hrf
    have := runViews_contains_vrp_mem s n t hwf ht hrf.1 hrf.2
    simp [this]
  have hunch : (viewsDiff (getLatestVrps (runViews s n t)) n).unchanged = n := by
    simp only [viewsDiff]
    rw [List.filter_eq_self]
    intro v hv
    exact (runViews_active_iff s n t hwf ht hopen v).2 hv
  have hins : (viewsDiff (getLatestVrps (runViews s n t)) n).inserted = [] := by
    simp only [viewsDiff]
    rw [List.filter_eq_nil_iff]
    intro v hv
    have h2 := (runViews_active_iff s n t hwf ht hopen v).2 hv
    cases hmk : mlookup (getLatestVrps (runViews s n t)) v with
    | none =>
      rw [hmk] at h2
      cases h2
    | some a =>
      simp [hmk]
  refine ⟨hdel, hunch, hins, ?_, ?_⟩
  · rw [runViews_recs (runViews s n t) n t, hdel, hins]
    simp [applyClose_nil, withIds]
  · rw [runViews_meta (runViews s n t) n t, hdel, hunch, hins]
    simp

/-- C5 witness: the empty store, one VRP, dump time 10. -/
theorem c5_witness :
    (viewsDiff (getLatestVrps (runViews emptyStore [⟨⟨10, 8⟩, 65001, 24⟩] 10))
      [⟨⟨10, 8⟩, 65001, 24⟩]).deleted = [] ∧
    (viewsDiff (getLatestVrps (runViews emptyStore [⟨⟨10, 8⟩, 65001, 24⟩] 10))
      [⟨⟨10, 8⟩, 65001, 24⟩]).unchanged = [⟨⟨10, 8⟩, 65001, 24⟩] ∧
    (viewsDiff (getLatestVrps (runViews emptyStore [⟨⟨10, 8⟩, 65001, 24⟩] 10))
      [⟨⟨10, 8⟩, 65001, 24⟩]).inserted = [] ∧
    (runViews (runViews emptyStore [⟨⟨10, 8⟩, 65001, 24⟩] 10)
      [⟨⟨10, 8⟩, 65001, 24⟩] 10).recs =
      (runViews emptyStore [⟨⟨10, 8⟩, 65001, 24⟩] 10).recs ∧
    (runViews (runViews emptyStore [⟨⟨10, 8⟩, 65001, 24⟩] 10)
      [⟨⟨10, 8⟩, 65001, 24⟩] 10).meta =
      (runViews emptyStore [⟨⟨10, 8⟩, 65001, 24⟩] 10).meta ++
        [⟨10, 0, [(⟨⟨10, 8⟩, 65001, 24⟩ : VRP)].length, 0⟩] :=
  c5_idempotent emptyStore [⟨⟨10, 8⟩, 65001, 24⟩] 10
    (by
      unfold WF
      exact ⟨List.Pairwise.nil, List.nodup_nil,
        fun r hr => absurd hr (List.not_mem_nil r), rfl⟩)
    (by decide) trivial
    (fun r hr => absurd hr (List.not_mem_nil r))

/-! ### C1 (full-snapshot preservation): `runViews` keeps the store invariant -/

theorem closeOne_vrp (upd : List (Nat × Visible)) (r : Rec) :
    (closeOne upd r).vrp = r.vrp := by
  unfold closeOne
  split <;> rfl

theorem closeOne_id (upd : List (Nat × Visible)) (r : Rec) :
    (closeOne upd r).id = r.id := by
  unfold closeOne
  split <;> rfl

theorem applyClose_map_id (recs : List Rec) (upd : List (Nat × Visible)) :
    (applyClose recs upd).map Rec.id = recs.map Rec.id := by
  rw [applyClose, List.map_map]
  exact List.map_congr_left (fun r _ => closeOne_id upd r)

theorem withIds_map_id : ∀ (base : Nat) (l : List (VRP × Visible)),
    (withIds base l).map Rec.id = List.range' base l.length
  | _, [] => rfl
  | base, p :: rest => by
      rw [withIds, List.map_cons, withIds_map_id (base + 1) rest]
      rfl

theorem withIds_pairwise_sep {l : List (VRP × Visible)}
    (h : l.Pairwise (fun p q => p.1 = q.1 → noOverlap p.2 q.2)) :
    ∀ base, (withIds base l).Pairwise Rec.sepFrom := by
  induction l with
  | nil => intro base; exact List.Pairwise.nil
  | cons p rest ih =>
    intro base
    rw [withIds]
    refine List.Pairwise.cons ?_ (ih h.tail (base + 1))
    intro r' hr' hveq
    obtain ⟨q, hq, h1, h2, -, -⟩ := mem_withIds_inv hr'
    have hpq := List.rel_of_pairwise_cons h hq
    rw [h2]
    exact hpq (by rw [← h1]; exact hveq)

/-- Case analysis of the effect of the full-snapshot `UPDATE` batch on a row:
either it is untouched (and then, if it is part of the active set, its
identity is in the new observation), or it is a deleted active row and is
closed at the previous latest dump time. -/
theorem closeOne_spec (s : Store) (n : List VRP) {l : Nat}
    (hsep : s.recs.Pairwise Rec.sepFrom) (hids : (s.recs.map Rec.id).Nodup)
    (hl : latestTs s = some l) {r : Rec} (hr : r ∈ s.recs) :
    (closeOne ((viewsDiff (getLatestVrps s) n).deleted.map
        (fun p => (p.2.1, Visible.mk p.2.2.lower (latestTs s)))) r = r ∧
      (r.visible.containsT l = true → r.vrp ∈ n)) ∨
    (closeOne ((viewsDiff (getLatestVrps s) n).deleted.map
        (fun p => (p.2.1, Visible.mk p.2.2.lower (latestTs s)))) r =
        { r with visible := ⟨r.visible.lower, some l⟩ } ∧
      r.visible.containsT l = true ∧ r.vrp ∉ n) := by
  cases hfind : ((viewsDiff (getLatestVrps s) n).deleted.map
      (fun p => (p.2.1, Visible.mk p.2.2.lower (latestTs s)))).find?
        (fun q => decide (q.1 = r.id)) with
  | none =>
    left
    refine ⟨closeOne_eq_none hfind, ?_⟩
    intro hcl
    by_contra hnot
    have hdict : (r.vrp, (r.id, r.visible)) ∈ getLatestVrps s := by
      rw [getLatestVrps_eq hsep hl]
      exact List.mem_map_of_mem _ (List.mem_filter.2 ⟨hr, hcl⟩)
    have hdel := mem_deleted_iff.2 ⟨hdict, hnot⟩
    have hupd := List.mem_map_of_mem
      (fun p => (p.2.1, Visible.mk p.2.2.lower (latestTs s))) hdel
    rw [List.find?_eq_none] at hfind
    exact hfind _ hupd (by simp)
  | some p =>
    right
    have hdec := List.find?_some hfind
    have hpid : p.1 = r.id := by simpa using hdec
    have hpmem := List.mem_of_find?_eq_some hfind
    rw [List.mem_map] at hpmem
    obtain ⟨d, hd, hproj⟩ := hpmem
    rw [mem_deleted_iff] at hd
    obtain ⟨hdict, hnotn⟩ := hd
    rw [getLatestVrps_eq hsep hl, List.mem_map] at hdict
    obtain ⟨r1, hr1f, hd2⟩ := hdict
    have h5 : d.2.1 = p.1 := by rw [← hproj]
    have h6 : r1.id = d.2.1 := congrArg (fun x => x.2.1) hd2
    have h7 : r1 = r := List.inj_on_of_nodup_map hids
      (List.mem_of_mem_filter hr1f) hr (by rw [h6, h5, hpid])
    subst h7
    have hcl : r1.visible.containsT l = true := (List.mem_filter.1 hr1f).2
    have hvd : d.1 = r1.vrp := (congrArg Prod.fst hd2).symm
    have hvis : d.2.2 = r1.visible := (congrArg (fun x => x.2.2) hd2).symm
    have hp2 : p.2 = Visible.mk r1.visible.lower (some l) := by
      have h8 := congrArg Prod.snd hproj
      rw [← h8, hvis, hl]
    refine ⟨?_, hcl, by rw [← hvd]; exact hnotn⟩
    rw [closeOne_eq_some hfind, hp2]

/-- The full-snapshot run preserves store well-formedness whenever its dump
time lies strictly after the ingested history and the observation is a set. -/
theorem runViews_WF (s : Store) (n : List VRP) (t : Nat)
    (hwf : WF s) (hok : RunOK s (.snap n t)) : WF (runViews s n t) := by
  obtain ⟨hsep, hids, hlt, hbnd⟩ := hwf
  obtain ⟨hnd, ht⟩ : n.Nodup ∧ ltNext (latestTs s) t := hok
  have hl' := latestTs_runViews s n t ht
  -- facts about the inserted block
  have hinsnd : ((viewsDiff (getLatestVrps s) n).inserted.map
      (fun v => (v, Visible.mk t none))).Pairwise
        (fun p q => p.1 = q.1 → noOverlap p.2 q.2) := by
    rw [List.pairwise_map]
    have hnodup : (viewsDiff (getLatestVrps s) n).inserted.Nodup := by
      simp only [viewsDiff]
      exact hnd.filter _
    exact hnodup.imp (fun hne he => absurd he hne)
  have hBpair := withIds_pairwise_sep hinsnd s.nextId
  have hBmem : ∀ r ∈ withIds s.nextId ((viewsDiff (getLatestVrps s) n).inserted.map
      (fun v => (v, Visible.mk t none))),
      r.vrp ∈ (viewsDiff (getLatestVrps s) n).inserted ∧
        r.visible = Visible.mk t none ∧ s.nextId ≤ r.id ∧
        r.id < s.nextId + (viewsDiff (getLatestVrps s) n).inserted.length := by
    intro r hr
    obtain ⟨p, hp, h1, h2, h3, h4⟩ := mem_withIds_inv hr
    rw [List.mem_map] at hp
    obtain ⟨v, hv, rfl⟩ := hp
    rw [List.length_map] at h4
    exact ⟨h1 ▸ hv, h2, h3, h4⟩
  unfold WF
  rw [runViews_recs]
  refine ⟨?_, ?_, ?_, ?_⟩
  · -- pairwise separation
    rw [List.pairwise_append]
    refine ⟨?_, hBpair, ?_⟩
    · -- within the updated old rows
      rw [applyClose, List.pairwise_map]
      refine List.Pairwise.imp_of_mem ?_ hsep
      intro r1 r2 h1 h2 hs
      cases hl : latestTs s with
      | none =>
        rw [hl] at hbnd
        rw [hbnd] at h1
        cases h1
      | some l =>
        rw [hl] at hbnd
        intro hveq
        have hv12 : r1.vrp = r2.vrp := by
          rw [← closeOne_vrp _ r1, ← closeOne_vrp _ r2]
          exact hveq
        have hno := hs hv12
        rcases closeOne_spec s n hsep hids hl h1 with ⟨he1, -⟩ | ⟨he1, hc1, -⟩ <;>
          rcases closeOne_spec s n hsep hids hl h2 with ⟨he2, -⟩ | ⟨he2, hc2, -⟩ <;>
            rw [hl] at he1 he2 <;> rw [he1, he2]
        · exact hno
        · -- r2 closed at l: its new interval is inside the old one
          intro t' ⟨ha, hb⟩
          refine hno t' ⟨ha, ?_⟩
          rw [containsT_iff] at hb hc2 ⊢
          obtain ⟨hb1, hb2⟩ := hb
          have hb3 := hb2 l rfl
          refine ⟨hb1, ?_⟩
          intro u hu
          have := hc2.2 u hu
          omega
        · intro t' ⟨ha, hb⟩
          refine hno t' ⟨?_, hb⟩
          rw [containsT_iff] at ha hc1 ⊢
          obtain ⟨ha1, ha2⟩ := ha
          have ha3 := ha2 l rfl
          refine ⟨ha1, ?_⟩
          intro u hu
          have := hc1.2 u hu
          omega
        · intro t' ⟨ha, hb⟩
          rw [containsT_iff] at ha hb hc1 hc2
          refine hno t' ⟨?_, ?_⟩ <;> rw [containsT_iff]
          · refine ⟨ha.1, ?_⟩
            intro u hu
            have h3 := ha.2 l rfl
            have := hc1.2 u hu
            omega
          · refine ⟨hb.1, ?_⟩
            intro u hu
            have h3 := hb.2 l rfl
            have := hc2.2 u hu
            omega
    · -- cross: updated old rows vs newly inserted rows
      intro a ha b hb
      rw [applyClose, List.mem_map] at ha
      obtain ⟨r0, hr0, rfl⟩ := ha
      obtain ⟨hbv, hbvis, -, -⟩ := hBmem b hb
      cases hl : latestTs s with
      | none =>
        rw [hl] at hbnd
        rw [hbnd] at hr0
        cases hr0
      | some l =>
        rw [hl] at hbnd
        rw [hl] at ht
        have ht2 : l < t := ht
        intro hveq
        have hbv2 : r0.vrp = b.vrp := by
          rw [← closeOne_vrp _ r0]
          exact hveq
        -- b's identity has no row containing l
        have hnol : ∀ r1 ∈ s.recs, r1.visible.containsT l = true → r1.vrp ≠ b.vrp := by
          intro r1 h1 hc1 hveq1
          have hvb : (mlookup (getLatestVrps s) b.vrp).isNone = true := by
            simp only [viewsDiff] at hbv
            exact (List.mem_filter.1 hbv).2
          rw [Option.isNone_iff_eq_none, mlookup_eq_none_iff] at hvb
          refine hvb ?_
          rw [getLatestVrps_eq hsep hl]
          have : (r1.vrp, (r1.id, r1.visible)) ∈
              (s.recs.filter (fun r => r.visible.containsT l)).map
                (fun r => (r.vrp, (r.id, r.visible))) :=
            List.mem_map_of_mem _ (List.mem_filter.2 ⟨h1, hc1⟩)
          rw [mkeys, List.mem_map]
          exact ⟨_, this, hveq1⟩
        rcases closeOne_spec s n hsep hids hl hr0 with ⟨he1, -⟩ | ⟨he1, hc1, -⟩ <;>
          rw [hl] at he1
        · rw [he1]
          cases hu : r0.visible.upper with
          | none =>
            exact absurd hbv2 (hnol r0 hr0 (by
              rw [containsT_iff]
              exact ⟨(hbnd r0 hr0).1, fun u hu2 => by rw [hu] at hu2; cases hu2⟩))
          | some u =>
            intro t' ⟨ha2, hb2⟩
            rw [containsT_iff] at ha2 hb2
            have h3 := ha2.2 u hu
            have h4 := ((hbnd r0 hr0).2 u hu).2
            have h5 : t ≤ t' := by
              rw [hbvis] at hb2
              exact hb2.1
            omega
        · rw [he1]
          intro t' ⟨ha2, hb2⟩
          rw [containsT_iff] at ha2 hb2
          have h3 := ha2.2 l rfl
          have h5 : t ≤ t' := by
            rw [hbvis] at hb2
            exact hb2.1
          omega
  · -- ids are distinct
    rw [List.map_append, List.nodup_append, applyClose_map_id, withIds_map_id]
    refine ⟨hids, List.nodup_range' _ _, ?_⟩
    intro i h1 h2
    rw [List.mem_range'] at h2
    obtain ⟨j, -, rfl⟩ := h2
    rw [List.mem_map] at h1
    obtain ⟨r0, hr0, hid0⟩ := h1
    have := hlt r0 hr0
    omega
  · -- ids below the sequence counter
    intro r hr
    rw [List.mem_append] at hr
    rcases hr with hr | hr
    · rw [applyClose, List.mem_map] at hr
      obtain ⟨r0, hr0, rfl⟩ := hr
      rw [closeOne_id]
      have := hlt r0 hr0
      show r0.id < s.nextId + (viewsDiff (getLatestVrps s) n).inserted.length
      omega
    · obtain ⟨-, -, -, h4⟩ := hBmem r hr
      exact h4
  · -- endpoint bounds for the new latest dump time
    have h4 : ∀ r ∈ applyClose s.recs ((viewsDiff (getLatestVrps s) n).deleted.map
        (fun p => (p.2.1, Visible.mk p.2.2.lower (latestTs s)))) ++
        withIds s.nextId ((viewsDiff (getLatestVrps s) n).inserted.map
          (fun v => (v, Visible.mk t none))), recBounded t r := by
      intro r hr
      rw [List.mem_append] at hr
      rcases hr with hr | hr
      · rw [applyClose, List.mem_map] at hr
        obtain ⟨r0, hr0, rfl⟩ := hr
        cases hl : latestTs s with
        | none =>
          rw [hl] at hbnd
          rw [hbnd] at hr0
          cases hr0
        | some l =>
          rw [hl] at hbnd
          rw [hl] at ht
          have ht2 : l < t := ht
          have hb0 := hbnd r0 hr0
          rcases closeOne_spec s n hsep hids hl hr0 with ⟨he, -⟩ | ⟨he, hc, -⟩ <;>
            rw [hl] at he <;> rw [he]
          · exact ⟨Nat.le_trans hb0.1 (Nat.le_of_lt ht2),
              fun u hu => ⟨(hb0.2 u hu).1, Nat.le_trans (hb0.2 u hu).2 (Nat.le_of_lt ht2)⟩⟩
          · rw [containsT_iff] at hc
            refine ⟨Nat.le_trans hc.1 (Nat.le_of_lt ht2), ?_⟩
            intro u hu
            have hu2 : l = u := by injection hu
            subst hu2
            exact ⟨hc.1, Nat.le_of_lt ht2⟩
      · obtain ⟨-, h2, -, -⟩ := hBmem r hr
        refine ⟨?_, ?_⟩
        · rw [h2]
        · intro u hu
          rw [h2] at hu
          cases hu
    rw [hl']
    exact h4

/-! ### C1 (event-stream preservation): the mid-run invariant -/

theorem mem_minsert {κ α : Type} [DecidableEq κ] {m : List (κ × α)} {k : κ}
    {a : α} {x : κ × α} (h : x ∈ minsert m k a) : x ∈ m ∨ x = (k, a) := by
  rw [minsert, List.mem_append] at h
  rcases h with h | h
  · exact Or.inl (mem_merase.1 h).1
  · exact Or.inr (List.mem_singleton.1 h)

theorem self_mem_minsert {κ α : Type} [DecidableEq κ] (m : List (κ × α)) (k : κ)
    (a : α) : (k, a) ∈ minsert m k a := by
  rw [minsert, List.mem_append]
  exact Or.inr (List.mem_singleton.2 rfl)

theorem nodup_append_singleton {α : Type} {l : List α} {x : α}
    (h : l.Nodup) (hx : x ∉ l) : (l ++ [x]).Nodup := by
  rw [List.nodup_append]
  refine ⟨h, List.nodup_singleton x, ?_⟩
  intro a ha hb
  rw [List.mem_singleton] at hb
  subst hb
  exact hx ha

theorem mkeys_minsert_nodup {κ α : Type} [DecidableEq κ] {m : List (κ × α)}
    {k : κ} {a : α} (h : (mkeys m).Nodup) : (mkeys (minsert m k a)).Nodup := by
  rw [minsert, mkeys, List.map_append]
  exact nodup_append_singleton (mkeys_merase_nodup h) (not_mem_mkeys_merase m k)

theorem mkeys_merase_subset {κ α : Type} [DecidableEq κ] {m : List (κ × α)}
    {k k' : κ} (h : k' ∈ mkeys (merase m k)) : k' ∈ mkeys m :=
  (mkeys_merase_sublist m k).subset h

theorem le_foldl_max : ∀ (l : List Nat) (a b : Nat), b ≤ a → b ≤ l.foldl Nat.max a
  | [], _, _, h => h
  | x :: xs, a, b, h =>
      le_foldl_max xs (Nat.max a x) b (Nat.le_trans h (Nat.le_max_left a x))

theorem mem_le_foldl_max : ∀ (l : List Nat) (a x : Nat), x ∈ l → x ≤ l.foldl Nat.max a
  | [], _, x, h => absurd h (List.not_mem_nil x)
  | y :: ys, a, x, h => by
      rcases List.mem_cons.1 h with rfl | h'
      · exact le_foldl_max ys (Nat.max a x) x (Nat.le_max_right a x)
      · exact mem_le_foldl_max ys (Nat.max a y) x h'

theorem ts_le_maxTs {e : Ev} {evs : List Ev} (h : e ∈ evs) : e.ts ≤ maxTs evs :=
  mem_le_foldl_max _ 0 _ (List.mem_map_of_mem Ev.ts h)

/-- Adding a pending insert for an identity absent from the working active set
preserves the mid-run invariant (for any value of the counters). -/
theorem MidInv_pend_insert {l? : Option Nat} {d0 : List (VRP × (Nat × Visible))}
    {st : FlState} (hM : MidInv l? d0 st) {v : VRP} {ts : Nat}
    (hlk : mlookup st.latest v = none) (hstamp : StampsLt st ts)
    (hl : ∀ l, l? = some l → l < ts) (m : Nat) :
    MidInv l? d0 { st with insert_vrps := minsert st.insert_vrps v ts, nNew := m } := by
  refine ⟨hM.lat_sub, hM.lat_keys, hM.d0_split, hM.upd_src, hM.upd_ids,
    mkeys_minsert_nodup hM.pend_keys, ?_, hM.ins_inv, hM.ins_pair⟩
  intro p hp
  rcases mem_minsert hp with hp' | rfl
  · exact hM.pend_inv p hp'
  · refine ⟨hl, mlookup_eq_none_iff.1 hlk, ?_, ?_⟩
    · intro q hq vis hvis u hu
      exact Nat.lt_of_lt_of_le (hstamp.1 q hq u hu) (Nat.le_refl ts)
    · intro q hq heq u hu
      exact (hstamp.2.2 q hq).2 u hu

/-- `StampsLt` is monotone under a pending insert. -/
theorem StampsLt_pend_insert {st : FlState} {v : VRP} {ts : Nat} {m : Nat}
    {t : Nat} (h : StampsLt st t) (hts : ts < t) :
    StampsLt { st with insert_vrps := minsert st.insert_vrps v ts, nNew := m } t := by
  refine ⟨h.1, ?_, h.2.2⟩
  intro p hp
  rcases mem_minsert hp with hp' | rfl
  · exact h.2.1 p hp'
  · exact hts

/-- A withdraw of an identity in the working active set pops it and emits the
closing update; this preserves the mid-run invariant. -/
theorem MidInv_withdraw_active {l? : Option Nat} {d0 : List (VRP × (Nat × Visible))}
    {st : FlState}
    (hd0fun : ∀ (v1 v2 : VRP) (x y : Nat × Visible), (v1, x) ∈ d0 → (v2, y) ∈ d0 →
      x.1 = y.1 → v1 = v2 ∧ x = y)
    (hM : MidInv l? d0 st) {v : VRP} {iv : Nat × Visible} {ts : Nat}
    (hlk : mlookup st.latest v = some iv)
    (hl : ∀ l, l? = some l → l < ts) (m : Nat) :
    MidInv l? d0 { st with
      nDel := m
      latest := merase st.latest v
      update_rows := st.update_rows ++ [(iv.1, ⟨iv.2.lower, some ts⟩)] } := by
  have hvm : (v, iv) ∈ st.latest := mlookup_mem hlk
  have hvd0 : (v, iv) ∈ d0 := hM.lat_sub _ hvm
  have hvkey : v ∈ mkeys st.latest := mem_mkeys_of_mem hvm
  refine ⟨?_, mkeys_merase_nodup hM.lat_keys, ?_, ?_, ?_, hM.pend_keys, ?_, ?_,
    hM.ins_pair⟩
  · intro x hx
    exact hM.lat_sub x (mem_merase.1 hx).1
  · intro x hx
    rcases hM.d0_split x hx with hin | ⟨hnk, e, hup⟩
    · by_cases hxk : x.1 = v
      · have hx2 : x.2 = iv := by
          have hmx : mlookup st.latest x.1 = some x.2 := mem_mlookup hM.lat_keys hin
          rw [hxk, hlk] at hmx
          injection hmx with hmx
          exact hmx.symm
        right
        refine ⟨by rw [hxk]; exact not_mem_mkeys_merase _ _, ts, ?_⟩
        rw [List.mem_append, hx2]
        exact Or.inr (List.mem_singleton.2 rfl)
      · left
        exact mem_merase.2 ⟨hin, hxk⟩
    · exact Or.inr ⟨fun hc => hnk (mkeys_merase_subset hc), e,
        List.mem_append.2 (Or.inl hup)⟩
  · intro p hp
    rcases List.mem_append.1 hp with hp' | hp'
    · obtain ⟨v', vis, e, h1, h2, h3, h4⟩ := hM.upd_src p hp'
      exact ⟨v', vis, e, h1, h2, fun hc => h3 (mkeys_merase_subset hc), h4⟩
    · rw [List.mem_singleton] at hp'
      subst hp'
      exact ⟨v, iv.2, ts, hvd0, rfl, not_mem_mkeys_merase _ _, hl⟩
  · rw [List.map_append, List.map_singleton]
    refine nodup_append_singleton hM.upd_ids ?_
    intro hc
    rw [List.mem_map] at hc
    obtain ⟨q, hq, hq1⟩ := hc
    obtain ⟨v'', vis'', e'', hd0'', -, hnk'', -⟩ := hM.upd_src q hq
    have heq := hd0fun v'' v (q.1, vis'') iv hd0'' hvd0 hq1
    exact hnk'' (heq.1.symm ▸ hvkey)
  · intro p hp
    obtain ⟨h1, h2, h3, h4⟩ := hM.pend_inv p hp
    refine ⟨h1, fun hc => h2 (mkeys_merase_subset hc), ?_, h4⟩
    intro q hq vis hvis u hu
    rcases List.mem_append.1 hq with hq' | hq'
    · exact h3 q hq' vis hvis u hu
    · rw [List.mem_singleton] at hq'
      subst hq'
      have heq := hd0fun p.1 v (iv.1, vis) iv hvis hvd0 rfl
      exact absurd (heq.1.symm ▸ hvkey) h2
  · intro p hp
    obtain ⟨hsh, h2, h3⟩ := hM.ins_inv p hp
    refine ⟨hsh, fun hc => h2 (mkeys_merase_subset hc), ?_⟩
    intro q hq vis hvis u hu
    rcases List.mem_append.1 hq with hq' | hq'
    · exact h3 q hq' vis hvis u hu
    · rw [List.mem_singleton] at hq'
      subst hq'
      have heq := hd0fun p.1 v (iv.1, vis) iv hvis hvd0 rfl
      exact absurd (heq.1.symm ▸ hvkey) h2

theorem StampsLt_withdraw_active {st : FlState} {v : VRP} {iv : Nat × Visible}
    {ts m t : Nat} (h : StampsLt st t) (hts : ts < t) :
    StampsLt { st with
      nDel := m
      latest := merase st.latest v
      update_rows := st.update_rows ++ [(iv.1, ⟨iv.2.lower, some ts⟩)] } t := by
  refine ⟨?_, h.2.1, h.2.2⟩
  intro p hp u hu
  rcases List.mem_append.1 hp with hp' | hp'
  · exact h.1 p hp' u hu
  · rw [List.mem_singleton] at hp'
    subst hp'
    obtain rfl : ts = u := by injection hu
    exact hts

/-- A withdraw of an identity in the pending-insert map pops it and emits the
fully bounded row; this preserves the mid-run invariant. -/
theorem MidInv_withdraw_pending {l? : Option Nat} {d0 : List (VRP × (Nat × Visible))}
    {st : FlState} (hM : MidInv l? d0 st) {v : VRP} {lo ts : Nat}
    (hlk : mlookup st.latest v = none)
    (hplk : mlookup st.insert_vrps v = some lo)
    (hstamp : StampsLt st ts) (m : Nat) :
    MidInv l? d0 { st with
      nDel := m
      insert_vrps := merase st.insert_vrps v
      insert_rows := st.insert_rows ++ [(v, ⟨lo, some ts⟩)] } := by
  have hvm : (v, lo) ∈ st.insert_vrps := mlookup_mem hplk
  obtain ⟨hp1, hp2, hp3, hp4⟩ := hM.pend_inv (v, lo) hvm
  have hlo : lo < ts := hstamp.2.1 (v, lo) hvm
  refine ⟨hM.lat_sub, hM.lat_keys, hM.d0_split, hM.upd_src, hM.upd_ids,
    mkeys_merase_nodup hM.pend_keys, ?_, ?_, ?_⟩
  · intro p hp
    obtain ⟨hq, hne⟩ := mem_merase.1 hp
    obtain ⟨h1, h2, h3, h4⟩ := hM.pend_inv p hq
    refine ⟨h1, h2, h3, ?_⟩
    intro q hq2 heq u hu
    rcases List.mem_append.1 hq2 with hq' | hq'
    · exact h4 q hq' heq u hu
    · rw [List.mem_singleton] at hq'
      subst hq'
      exact absurd heq.symm hne
  · intro p hp
    rcases List.mem_append.1 hp with hp' | hp'
    · obtain ⟨hsh, h2, h3⟩ := hM.ins_inv p hp'
      exact ⟨hsh, h2, h3⟩
    · rw [List.mem_singleton] at hp'
      subst hp'
      refine ⟨⟨lo, ts, rfl, Nat.le_of_lt hlo, hp1⟩, hp2, ?_⟩
      intro q hq vis hvis u hu
      exact hp3 q hq vis hvis u hu
  · rw [List.pairwise_append]
    refine ⟨hM.ins_pair, List.pairwise_singleton _ _, ?_⟩
    intro p hp q hq
    rw [List.mem_singleton] at hq
    subst hq
    intro heq u hu
    exact hp4 p hp heq u hu

theorem StampsLt_withdraw_pending {st : FlState} {v : VRP} {lo ts m t : Nat}
    (h : StampsLt st t) (hlo : lo < t) (hts : ts < t) :
    StampsLt { st with
      nDel := m
      insert_vrps := merase st.insert_vrps v
      insert_rows := st.insert_rows ++ [(v, ⟨lo, some ts⟩)] } t := by
  refine ⟨h.1, ?_, ?_⟩
  · intro p hp
    exact h.2.1 p (mem_merase.1 hp).1
  · intro p hp
    rcases List.mem_append.1 hp with hp' | hp'
    · exact h.2.2 p hp'
    · rw [List.mem_singleton] at hp'
      subst hp'
      refine ⟨hlo, ?_⟩
      intro u hu
      obtain rfl : ts = u := by injection hu
      exact hts

/-- One step of the event loop preserves the mid-run invariant; all timestamp
stamps it writes are the event's timestamp. -/
theorem flutterStep_mid {l? : Option Nat} {d0 : List (VRP × (Nat × Visible))}
    {st : FlState} {e : Ev}
    (hd0fun : ∀ (v1 v2 : VRP) (x y : Nat × Visible), (v1, x) ∈ d0 → (v2, y) ∈ d0 →
      x.1 = y.1 → v1 = v2 ∧ x = y)
    (hM : MidInv l? d0 st) (hstamp : StampsLt st e.ts)
    (hl : ∀ l, l? = some l → l < e.ts) :
    MidInv l? d0 (flutterStep st e) ∧
      ∀ t, StampsLt st t → e.ts < t → StampsLt (flutterStep st e) t := by
  obtain ⟨ty, v, ts⟩ := e
  cases ty with
  | state =>
    cases hlk : mlookup st.latest v with
    | none =>
      have hred : flutterStep st ⟨.state, v, ts⟩ =
          { st with insert_vrps := minsert st.insert_vrps v ts,
                    nNew := st.nNew + 1 } := by
        simp only [flutterStep, hlk]
      rw [hred]
      exact ⟨MidInv_pend_insert hM hlk hstamp hl _,
        fun t h ht => StampsLt_pend_insert h ht⟩
    | some iv =>
      have hred : flutterStep st ⟨.state, v, ts⟩ =
          { st with nUnch := st.nUnch + 1 } := by
        simp only [flutterStep, hlk]
      rw [hred]
      exact ⟨⟨hM.lat_sub, hM.lat_keys, hM.d0_split, hM.upd_src, hM.upd_ids,
        hM.pend_keys, hM.pend_inv, hM.ins_inv, hM.ins_pair⟩,
        fun t h _ => ⟨h.1, h.2.1, h.2.2⟩⟩
  | announce =>
    by_cases hc : (mlookup st.latest v).isSome = true ∨
        (mlookup st.insert_vrps v).isSome = true
    · have hred : flutterStep st ⟨.announce, v, ts⟩ = st := by
        simp only [flutterStep]
        rw [if_pos hc]
      rw [hred]
      exact ⟨hM, fun t h _ => h⟩
    · have h1 : mlookup st.latest v = none := by
        cases h : mlookup st.latest v with
        | none => rfl
        | some a => exact absurd (Or.inl (by rw [h]; rfl)) hc
      have hred : flutterStep st ⟨.announce, v, ts⟩ =
          { st with nNew := st.nNew + 1,
                    insert_vrps := minsert st.insert_vrps v ts } := by
        simp only [flutterStep]
        rw [if_neg hc]
      rw [hred]
      exact ⟨MidInv_pend_insert hM h1 hstamp hl _,
        fun t h ht => StampsLt_pend_insert h ht⟩
  | withdraw =>
    by_cases hc : (mlookup st.latest v).isNone = true ∧
        (mlookup st.insert_vrps v).isNone = true
    · have hred : flutterStep st ⟨.withdraw, v, ts⟩ = st := by
        simp only [flutterStep]
        rw [if_pos hc]
      rw [hred]
      exact ⟨hM, fun t h _ => h⟩
    · cases hlk : mlookup st.latest v with
      | some iv =>
        have hred : flutterStep st ⟨.withdraw, v, ts⟩ =
            { st with
              nDel := st.nDel + 1
              latest := merase st.latest v
              update_rows := st.update_rows ++ [(iv.1, ⟨iv.2.lower, some ts⟩)] } := by
          simp only [flutterStep]
          rw [if_neg hc, hlk]
        rw [hred]
        exact ⟨MidInv_withdraw_active hd0fun hM hlk hl _,
          fun t h ht => StampsLt_withdraw_active h ht⟩
      | none =>
        cases hplk : mlookup st.insert_vrps v with
        | some lo =>
          have hred : flutterStep st ⟨.withdraw, v, ts⟩ =
              { st with
                nDel := st.nDel + 1
                insert_vrps := merase st.insert_vrps v
                insert_rows := st.insert_rows ++ [(v, ⟨lo, some ts⟩)] } := by
            simp only [flutterStep]
            rw [if_neg hc, hlk, hplk]
          rw [hred]
          exact ⟨MidInv_withdraw_pending hM hlk hplk hstamp _,
            fun t h ht =>
              StampsLt_withdraw_pending h (h.2.1 (v, lo) (mlookup_mem hplk)) ht⟩
        | none =>
          exact absurd ⟨by rw [hlk]; rfl, by rw [hplk]; rfl⟩ hc
  | unknown =>
    have hred : flutterStep st ⟨.unknown, v, ts⟩ = st := by
      simp only [flutterStep]
    rw [hred]
    exact ⟨hM, fun t h _ => h⟩

/-- Folding the event loop over a strictly increasing stream preserves the
mid-run invariant and keeps all stamps below any bound dominating the stream. -/
theorem flutterFold_mid {l? : Option Nat} {d0 : List (VRP × (Nat × Visible))}
    (hd0fun : ∀ (v1 v2 : VRP) (x y : Nat × Visible), (v1, x) ∈ d0 → (v2, y) ∈ d0 →
      x.1 = y.1 → v1 = v2 ∧ x = y) :
    ∀ (evs : List Ev) (st : FlState), MidInv l? d0 st →
      evs.Pairwise (fun a b => a.ts < b.ts) →
      (∀ e ∈ evs, ∀ l, l? = some l → l < e.ts) →
      (∀ e ∈ evs, StampsLt st e.ts) →
      MidInv l? d0 (evs.foldl flutterStep st) ∧
        ∀ t, StampsLt st t → (∀ e ∈ evs, e.ts < t) →
          StampsLt (evs.foldl flutterStep st) t := by
  intro evs
  induction evs with
  | nil => exact fun st hM _ _ _ => ⟨hM, fun t h _ => h⟩
  | cons e rest ih =>
    intro st hM hmono hgt hst
    rw [List.foldl_cons]
    have hstep := flutterStep_mid hd0fun hM (hst e (List.mem_cons_self _ _))
      (hgt e (List.mem_cons_self _ _))
    have hrest := ih (flutterStep st e) hstep.1 hmono.tail
      (fun e' he' => hgt e' (List.mem_cons_of_mem _ he'))
      (fun e' he' => hstep.2 e'.ts (hst e' (List.mem_cons_of_mem _ he'))
        (List.rel_of_pairwise_cons hmono he'))
    refine ⟨hrest.1, ?_⟩
    intro t hstt hall
    exact hrest.2 t (hstep.2 t hstt (hall e (List.mem_cons_self _ _)))
      (fun e' he' => hall e' (List.mem_cons_of_mem _ he'))

theorem mem_getLatestVrps_iff {s : Store} {l : Nat} {v : VRP} {i : Nat}
    {vis : Visible} (hsep : s.recs.Pairwise Rec.sepFrom)
    (hl : latestTs s = some l) :
    (v, (i, vis)) ∈ getLatestVrps s ↔
      ∃ r ∈ s.recs, r.visible.containsT l = true ∧ r.vrp = v ∧ r.id = i ∧
        r.visible = vis := by
  rw [getLatestVrps_eq hsep hl, List.mem_map]
  constructor
  · rintro ⟨r, hr, he⟩
    refine ⟨r, List.mem_of_mem_filter hr, (List.mem_filter.1 hr).2,
      congrArg Prod.fst he, ?_, ?_⟩
    · exact congrArg (fun x => x.2.1) he
    · exact congrArg (fun x => x.2.2) he
  · rintro ⟨r, hr, hc, rfl, rfl, rfl⟩
    exact ⟨r, List.mem_filter.2 ⟨hr, hc⟩, rfl⟩

theorem getLatestVrps_id_fun (s : Store) (hsep : s.recs.Pairwise Rec.sepFrom)
    (hids : (s.recs.map Rec.id).Nodup) :
    ∀ (v1 v2 : VRP) (x y : Nat × Visible), (v1, x) ∈ getLatestVrps s →
      (v2, y) ∈ getLatestVrps s → x.1 = y.1 → v1 = v2 ∧ x = y := by
  intro v1 v2 x y hx hy hxy
  cases hl : latestTs s with
  | none =>
    have hnil : getLatestVrps s = [] := by
      unfold getLatestVrps
      rw [hl]
    rw [hnil] at hx
    cases hx
  | some l =>
    obtain ⟨r1, h1, hc1, hv1, hi1, hvi1⟩ :=
      (@mem_getLatestVrps_iff s l v1 x.1 x.2 hsep hl).1 hx
    obtain ⟨r2, h2, hc2, hv2, hi2, hvi2⟩ :=
      (@mem_getLatestVrps_iff s l v2 y.1 y.2 hsep hl).1 hy
    have h12 : r1 = r2 := List.inj_on_of_nodup_map hids h1 h2 (by rw [hi1, hi2, hxy])
    subst h12
    refine ⟨by rw [← hv1, ← hv2], ?_⟩
    have hx2 : x = (x.1, x.2) := rfl
    have hy2 : y = (y.1, y.2) := rfl
    rw [hx2, hy2, ← hi1, ← hvi1, ← hi2, ← hvi2]

theorem getLatestVrps_keys_nodup (s : Store)
    (hsep : s.recs.Pairwise Rec.sepFrom) : (mkeys (getLatestVrps s)).Nodup := by
  cases hl : latestTs s with
  | none =>
    have hnil : getLatestVrps s = [] := by
      unfold getLatestVrps
      rw [hl]
    rw [hnil]
    exact List.nodup_nil
  | some l =>
    rw [getLatestVrps_eq hsep hl, mkeys, List.map_map]
    exact filter_vrps_nodup hsep

theorem runFlutter_recs (s : Store) (evs : List Ev) :
    (runFlutter s evs).recs =
      applyClose s.recs
          (evs.foldl flutterStep ⟨getLatestVrps s, [], [], [], 0, 0, 0⟩).update_rows ++
        withIds s.nextId
          (evs.foldl flutterStep ⟨getLatestVrps s, [], [], [], 0, 0, 0⟩).insert_rows ++
        withIds (s.nextId +
            (evs.foldl flutterStep ⟨getLatestVrps s, [], [], [], 0, 0, 0⟩).insert_rows.length)
          ((evs.foldl flutterStep ⟨getLatestVrps s, [], [], [], 0, 0, 0⟩).insert_vrps.map
            (fun p => (p.1, Visible.mk p.2 none))) := rfl

theorem latestTs_runFlutter (s : Store) (evs : List Ev) :
    ∃ m, latestTs (runFlutter s evs) = some m ∧ maxTs evs ≤ m ∧
      ∀ l, latestTs s = some l → l ≤ m := by
  have h1 : (runFlutter s evs).meta = s.meta ++
      [⟨maxTs evs,
        (evs.foldl flutterStep ⟨getLatestVrps s, [], [], [], 0, 0, 0⟩).nDel,
        (evs.foldl flutterStep ⟨getLatestVrps s, [], [], [], 0, 0, 0⟩).nUnch,
        (evs.foldl flutterStep ⟨getLatestVrps s, [], [], [], 0, 0, 0⟩).nNew⟩] := rfl
  unfold latestTs
  rw [h1, List.map_append, List.map_singleton, listMax?_append_singleton]
  cases h : listMax? (s.meta.map Meta.dump_time) with
  | none =>
    refine ⟨maxTs evs, rfl, Nat.le_refl _, ?_⟩
    intro l hl
    exact absurd hl (by simp)
  | some m =>
    refine ⟨Nat.max m (maxTs evs), rfl, Nat.le_max_right _ _, ?_⟩
    intro l hl
    injection hl with hl
    subst hl
    exact Nat.le_max_left _ _

/-- Case analysis of the effect of the event-stream `UPDATE` batch on a
pre-existing row, given the mid-run invariant for the final working state. -/
theorem flutter_closeOne_spec (s : Store) {l : Nat} {stf : FlState}
    (hsep : s.recs.Pairwise Rec.sepFrom) (hids : (s.recs.map Rec.id).Nodup)
    (hl : latestTs s = some l)
    (hMf : MidInv (latestTs s) (getLatestVrps s) stf)
    {r : Rec} (hr : r ∈ s.recs) :
    (closeOne stf.update_rows r = r ∧
      (r.visible.containsT l = true → r.vrp ∈ mkeys stf.latest)) ∨
    ∃ e, closeOne stf.update_rows r = { r with visible := ⟨r.visible.lower, some e⟩ } ∧
      r.visible.containsT l = true ∧ l < e ∧ r.vrp ∉ mkeys stf.latest ∧
      (r.id, Visible.mk r.visible.lower (some e)) ∈ stf.update_rows := by
  cases hfind : stf.update_rows.find? (fun q => decide (q.1 = r.id)) with
  | none =>
    left
    refine ⟨closeOne_eq_none hfind, ?_⟩
    intro hcl
    have hd0 : (r.vrp, (r.id, r.visible)) ∈ getLatestVrps s :=
      (mem_getLatestVrps_iff hsep hl).2 ⟨r, hr, hcl, rfl, rfl, rfl⟩
    rcases hMf.d0_split _ hd0 with hin | ⟨-, e, hup⟩
    · exact mem_mkeys_of_mem hin
    · rw [List.find?_eq_none] at hfind
      exact absurd (by simp : (fun q : Nat × Visible => decide (q.1 = r.id))
        (r.id, Visible.mk r.visible.lower (some e)) = true) (hfind _ hup)
  | some p =>
    right
    have hdec := List.find?_some hfind
    have hpid : p.1 = r.id := by simpa using hdec
    have hpmem := List.mem_of_find?_eq_some hfind
    obtain ⟨v, vis, e, hd0, hp2, hnk, hlt'⟩ := hMf.upd_src p hpmem
    obtain ⟨r1, hr1, hc1, hv1, hi1, hvi1⟩ :=
      (mem_getLatestVrps_iff hsep hl).1 hd0
    have h12 : r1 = r := List.inj_on_of_nodup_map hids hr1 hr (by rw [hi1, hpid])
    subst h12
    refine ⟨e, ?_, hvi1 ▸ hc1, hlt' l hl, hv1 ▸ hnk, ?_⟩
    · rw [closeOne_eq_some hfind, hp2, hvi1]
    · have hmem2 : (p.1, p.2) ∈ stf.update_rows := hpmem
      rw [hpid, hp2] at hmem2
      rw [← hvi1] at hmem2
      exact hmem2

theorem noOverlap_symm {a b : Visible} (h : noOverlap a b) : noOverlap b a :=
  fun t hc => h t ⟨hc.2, hc.1⟩

theorem noOverlap_of_le_lt {va vb : Visible} {l : Nat}
    (hua : ∃ u, va.upper = some u ∧ u ≤ l) (hlb : l < vb.lower) :
    noOverlap va vb := by
  intro t hc
  obtain ⟨h1, h2⟩ := hc
  rw [containsT_iff] at h1 h2
  obtain ⟨u, hu, hul⟩ := hua
  have h3 := h1.2 u hu
  have h4 := h2.1
  omega

/-- Closing an interval containing `l` at any point, when the other interval's
endpoints do not exceed `l`, cannot create an overlap. -/
theorem noOverlap_extend {va vb : Visible} {l e : Nat}
    (hno : noOverlap va vb)
    (hla : va.lower ≤ l) (hba : ∀ u, va.upper = some u → u ≤ l)
    (hcb : vb.containsT l = true) :
    noOverlap va ⟨vb.lower, some e⟩ := by
  intro t' hcon
  obtain ⟨h1', h2'⟩ := hcon
  rw [containsT_iff] at h1' h2'
  have hcb' := containsT_iff.1 hcb
  cases hub : vb.upper with
  | none =>
    refine hno t' ⟨containsT_iff.2 h1', containsT_iff.2 ⟨h2'.1, ?_⟩⟩
    intro u hu
    rw [hub] at hu
    cases hu
  | some ub =>
    by_cases hle : t' ≤ ub
    · refine hno t' ⟨containsT_iff.2 h1', containsT_iff.2 ⟨h2'.1, ?_⟩⟩
      intro u hu
      rw [hub] at hu
      injection hu with hu
      subst hu
      exact hle
    · cases hua : va.upper with
      | some ua =>
        have h3 := h1'.2 ua hua
        have h4 := hba ua hua
        have h5 := hcb'.2 ub hub
        omega
      | none =>
        refine hno l ⟨containsT_iff.2 ⟨hla, ?_⟩, hcb⟩
        intro u hu
        rw [hua] at hu
        cases hu

/-- The event-stream run preserves store well-formedness whenever the stream
is nonempty with strictly increasing timestamps, all strictly after the
ingested history. -/
theorem runFlutter_WF (s : Store) (evs : List Ev)
    (hwf : WF s) (hok : RunOK s (.fl evs)) : WF (runFlutter s evs) := by
  obtain ⟨hsep, hids, hlt, hbnd⟩ := hwf
  obtain ⟨hne, hmono, hgt⟩ : evs ≠ [] ∧
      evs.Pairwise (fun a b : Ev => a.ts < b.ts) ∧
      ∀ e ∈ evs, ltNext (latestTs s) e.ts := hok
  have hd0fun := getLatestVrps_id_fun s hsep hids
  have hM0 : MidInv (latestTs s) (getLatestVrps s)
      ⟨getLatestVrps s, [], [], [], 0, 0, 0⟩ := by
    refine ⟨fun x h => h, getLatestVrps_keys_nodup s hsep, fun x h => Or.inl h,
      ?_, List.nodup_nil, List.nodup_nil, ?_, ?_, List.Pairwise.nil⟩
    · intro p hp
      exact absurd hp (List.not_mem_nil p)
    · intro p hp
      exact absurd hp (List.not_mem_nil p)
    · intro p hp
      exact absurd hp (List.not_mem_nil p)
  have hgt' : ∀ e ∈ evs, ∀ l, latestTs s = some l → l < e.ts := by
    intro e he l hl
    have h2 := hgt e he
    rw [hl] at h2
    exact h2
  have hst0 : ∀ e ∈ evs, StampsLt ⟨getLatestVrps s, [], [], [], 0, 0, 0⟩ e.ts := by
    intro e he
    exact ⟨fun p hp => absurd hp (List.not_mem_nil p),
      fun p hp => absurd hp (List.not_mem_nil p),
      fun p hp => absurd hp (List.not_mem_nil p)⟩
  have hfold := flutterFold_mid hd0fun evs ⟨getLatestVrps s, [], [], [], 0, 0, 0⟩
    hM0 hmono hgt' hst0
  have hMf := hfold.1
  have hSf : StampsLt (evs.foldl flutterStep ⟨getLatestVrps s, [], [], [], 0, 0, 0⟩)
      (maxTs evs + 1) := by
    refine hfold.2 (maxTs evs + 1)
      ⟨fun p hp => absurd hp (List.not_mem_nil p),
        fun p hp => absurd hp (List.not_mem_nil p),
        fun p hp => absurd hp (List.not_mem_nil p)⟩ ?_
    intro e he
    exact Nat.lt_succ_of_le (ts_le_maxTs he)
  obtain ⟨M, hM1, hM2, hM3⟩ := latestTs_runFlutter s evs
  set stf := evs.foldl flutterStep ⟨getLatestVrps s, [], [], [], 0, 0, 0⟩ with hstf
  -- facts about the two freshly inserted blocks
  have hBrel : stf.insert_rows.Pairwise (fun p q => p.1 = q.1 → noOverlap p.2 q.2) := by
    refine List.Pairwise.imp_of_mem ?_ hMf.ins_pair
    intro p q hp hq hrel heq
    obtain ⟨⟨ap, bp, hshp, -, -⟩, -, -⟩ := hMf.ins_inv p hp
    intro t' hcon
    obtain ⟨h1', h2'⟩ := hcon
    rw [containsT_iff] at h1' h2'
    have hbp := hrel heq bp (by rw [hshp])
    have h3 := h1'.2 bp (by rw [hshp])
    have h4 := h2'.1
    omega
  have hBpair := withIds_pairwise_sep hBrel s.nextId
  have hCrel : (stf.insert_vrps.map (fun p => (p.1, Visible.mk p.2 none))).Pairwise
      (fun p q => p.1 = q.1 → noOverlap p.2 q.2) := by
    rw [List.pairwise_map]
    have hk : stf.insert_vrps.Pairwise (fun p q => p.1 ≠ q.1) :=
      List.pairwise_map.1 hMf.pend_keys
    exact hk.imp (fun h heq => absurd heq h)
  have hCpair := withIds_pairwise_sep hCrel (s.nextId + stf.insert_rows.length)
  have hCmem : ∀ c ∈ withIds (s.nextId + stf.insert_rows.length)
      (stf.insert_vrps.map (fun p => (p.1, Visible.mk p.2 none))),
      ∃ q ∈ stf.insert_vrps, c.vrp = q.1 ∧ c.visible = Visible.mk q.2 none ∧
        s.nextId + stf.insert_rows.length ≤ c.id ∧
        c.id < s.nextId + stf.insert_rows.length + stf.insert_vrps.length := by
    intro c hc
    obtain ⟨p', hp', h1, h2, h3, h4⟩ := mem_withIds_inv hc
    rw [List.mem_map] at hp'
    obtain ⟨q, hq, rfl⟩ := hp'
    rw [List.length_map] at h4
    exact ⟨q, hq, h1, h2, h3, h4⟩
  have hBC : ∀ a ∈ withIds s.nextId stf.insert_rows,
      ∀ b ∈ withIds (s.nextId + stf.insert_rows.length)
        (stf.insert_vrps.map (fun p => (p.1, Visible.mk p.2 none))),
      Rec.sepFrom a b := by
    intro a ha b hb heq
    obtain ⟨p, hp, hav, havis, -, -⟩ := mem_withIds_inv ha
    obtain ⟨q, hq, hbv, hbvis, -, -⟩ := hCmem b hb
    obtain ⟨-, -, -, hq4⟩ := hMf.pend_inv q hq
    obtain ⟨⟨ap, bp, hshp, -, -⟩, -, -⟩ := hMf.ins_inv p hp
    have hkey : p.1 = q.1 := by rw [← hav, ← hbv, heq]
    have hlt2 := hq4 p hp hkey bp (by rw [hshp])
    intro t' hcon
    obtain ⟨h1', h2'⟩ := hcon
    rw [havis, hshp] at h1'
    rw [hbvis] at h2'
    rw [containsT_iff] at h1' h2'
    have h3 : t' ≤ bp := h1'.2 bp rfl
    have h4 : q.2 ≤ t' := h2'.1
    omega
  unfold WF
  rw [runFlutter_recs]
  rw [← hstf]
  refine ⟨?_, ?_, ?_, ?_⟩
  · -- pairwise separation
    rw [List.pairwise_append, List.pairwise_append]
    refine ⟨⟨?_, hBpair, ?_⟩, hCpair, ?_⟩
    · -- within the updated old rows
      cases hl : latestTs s with
      | none =>
        rw [hl] at hbnd
        rw [applyClose, hbnd]
        exact List.Pairwise.nil
      | some l =>
        have hbnd' : ∀ r ∈ s.recs, recBounded l r := by
          rw [hl] at hbnd
          exact hbnd
        rw [applyClose, List.pairwise_map]
        refine List.Pairwise.imp_of_mem ?_ hsep
        intro r1 r2 h1 h2 hs hveq
        have hv12 : r1.vrp = r2.vrp := by
          rw [← closeOne_vrp stf.update_rows r1, ← closeOne_vrp stf.update_rows r2]
          exact hveq
        have hno := hs hv12
        rcases flutter_closeOne_spec s hsep hids hl hMf h1 with
          ⟨he1, hin1⟩ | ⟨e1, he1, hc1, hl1, hnk1, hu1⟩ <;>
          rcases flutter_closeOne_spec s hsep hids hl hMf h2 with
            ⟨he2, hin2⟩ | ⟨e2, he2, hc2, hl2, hnk2, hu2⟩ <;> rw [he1, he2]
        · exact hno
        · exact noOverlap_extend hno (hbnd' r1 h1).1
            (fun u hu => ((hbnd' r1 h1).2 u hu).2) hc2
        · exact noOverlap_symm (noOverlap_extend (noOverlap_symm hno)
            (hbnd' r2 h2).1 (fun u hu => ((hbnd' r2 h2).2 u hu).2) hc1)
        · -- both closed: they are the same row, contradiction
          have hd1 : (r1.vrp, (r1.id, r1.visible)) ∈ getLatestVrps s :=
            (mem_getLatestVrps_iff hsep hl).2 ⟨r1, h1, hc1, rfl, rfl, rfl⟩
          have hd2 : (r2.vrp, (r2.id, r2.visible)) ∈ getLatestVrps s :=
            (mem_getLatestVrps_iff hsep hl).2 ⟨r2, h2, hc2, rfl, rfl, rfl⟩
          have hk1 := mem_mlookup (getLatestVrps_keys_nodup s hsep) hd1
          have hk2 := mem_mlookup (getLatestVrps_keys_nodup s hsep) hd2
          rw [hv12, hk2] at hk1
          have hiv : r2.id = r1.id := by
            injection hk1 with hk1
            exact congrArg Prod.fst hk1
          have h12 : r2 = r1 := List.inj_on_of_nodup_map hids h2 h1 hiv
          subst h12
          exact absurd (hno l ⟨hc1, hc2⟩) (fun h => h)
    · -- cross: updated old rows vs bounded fresh rows
      intro a ha b hb heq
      rw [applyClose, List.mem_map] at ha
      obtain ⟨r, hr0, rfl⟩ := ha
      obtain ⟨p, hp, hbv, hbvis, -, -⟩ := mem_withIds_inv hb
      obtain ⟨⟨ap, bp, hshp, -, hlap⟩, hnkp, hq3⟩ := hMf.ins_inv p hp
      have hkey : r.vrp = p.1 := by
        rw [← hbv, ← closeOne_vrp stf.update_rows r]
        exact heq
      cases hl : latestTs s with
      | none =>
        rw [hl] at hbnd
        rw [hbnd] at hr0
        cases hr0
      | some l =>
        have hbnd' : ∀ r' ∈ s.recs, recBounded l r' := by
          rw [hl] at hbnd
          exact hbnd
        have hlap' : l < ap := hlap l hl
        rcases flutter_closeOne_spec s hsep hids hl hMf hr0 with
          ⟨he, hin⟩ | ⟨e, he, hc, hl2, hnk, hu⟩ <;> rw [he]
        · cases hua : r.visible.upper with
          | none =>
            have hcl : r.visible.containsT l = true := by
              rw [containsT_iff]
              exact ⟨(hbnd' r hr0).1, fun u hu2 => by rw [hua] at hu2; cases hu2⟩
            exact absurd (hkey ▸ hin hcl) hnkp
          | some u =>
            refine noOverlap_of_le_lt ⟨u, hua, ((hbnd' r hr0).2 u hua).2⟩ ?_
            rw [hbvis, hshp]
            exact hlap'
        · have hd : (p.1, (r.id, r.visible)) ∈ getLatestVrps s := by
            rw [← hkey]
            exact (mem_getLatestVrps_iff hsep hl).2 ⟨r, hr0, hc, rfl, rfl, rfl⟩
          have he2 := hq3 (r.id, Visible.mk r.visible.lower (some e)) hu
            r.visible hd e rfl
          have he2' : e < ap := by rw [hshp] at he2; exact he2
          refine noOverlap_of_le_lt ⟨e, rfl, Nat.le_refl e⟩ ?_
          rw [hbvis, hshp]
          exact he2'
    · -- cross: everything vs open fresh rows
      intro x hx c hc heq
      obtain ⟨q, hq, hcv, hcvis, -, -⟩ := hCmem c hc
      obtain ⟨hq1, hq2, hq3, hq4⟩ := hMf.pend_inv q hq
      rw [List.mem_append] at hx
      rcases hx with hx | hx
      · rw [applyClose, List.mem_map] at hx
        obtain ⟨r, hr0, rfl⟩ := hx
        have hkey : r.vrp = q.1 := by
          rw [← hcv, ← closeOne_vrp stf.update_rows r]
          exact heq
        cases hl : latestTs s with
        | none =>
          rw [hl] at hbnd
          rw [hbnd] at hr0
          cases hr0
        | some l =>
          have hbnd' : ∀ r' ∈ s.recs, recBounded l r' := by
            rw [hl] at hbnd
            exact hbnd
          have hlq : l < q.2 := hq1 l hl
          rcases flutter_closeOne_spec s hsep hids hl hMf hr0 with
            ⟨he, hin⟩ | ⟨e, he, hc2, hl2, hnk, hu⟩ <;> rw [he]
          · cases hua : r.visible.upper with
            | none =>
              have hcl : r.visible.containsT l = true := by
                rw [containsT_iff]
                exact ⟨(hbnd' r hr0).1, fun u hu2 => by rw [hua] at hu2; cases hu2⟩
              exact absurd (hkey ▸ hin hcl) hq2
            | some u =>
              refine noOverlap_of_le_lt ⟨u, hua, ((hbnd' r hr0).2 u hua).2⟩ ?_
              rw [hcvis]
              exact hlq
          · have hd : (q.1, (r.id, r.visible)) ∈ getLatestVrps s := by
              rw [← hkey]
              exact (mem_getLatestVrps_iff hsep hl).2 ⟨r, hr0, hc2, rfl, rfl, rfl⟩
            have he2 := hq3 (r.id, Visible.mk r.visible.lower (some e)) hu
              r.visible hd e rfl
            refine noOverlap_of_le_lt ⟨e, rfl, Nat.le_refl e⟩ ?_
            rw [hcvis]
            exact he2
      · exact hBC x hx c hc heq
  · -- ids are distinct
    rw [List.map_append, List.map_append, applyClose_map_id, withIds_map_id,
      withIds_map_id, List.nodup_append, List.nodup_append]
    refine ⟨⟨hids, List.nodup_range' _ _, ?_⟩, List.nodup_range' _ _, ?_⟩
    · intro i h1 h2
      rw [List.mem_range'] at h2
      obtain ⟨j, -, rfl⟩ := h2
      rw [List.mem_map] at h1
      obtain ⟨r0, hr0, hid0⟩ := h1
      have := hlt r0 hr0
      omega
    · intro i h1 h2
      rw [List.mem_range'] at h2
      obtain ⟨j, -, rfl⟩ := h2
      rw [List.mem_append] at h1
      rcases h1 with h1 | h1
      · rw [List.mem_map] at h1
        obtain ⟨r0, hr0, hid0⟩ := h1
        have := hlt r0 hr0
        omega
      · rw [List.mem_range'] at h1
        obtain ⟨j', hj', he⟩ := h1
        omega
  · -- ids below the sequence counter
    intro r hr
    rw [List.mem_append, List.mem_append] at hr
    show r.id < s.nextId + stf.insert_rows.length + stf.insert_vrps.length
    rcases hr with (hr | hr) | hr
    · rw [applyClose, List.mem_map] at hr
      obtain ⟨r0, hr0, rfl⟩ := hr
      rw [closeOne_id]
      have := hlt r0 hr0
      omega
    · obtain ⟨-, -, -, -, h4⟩ := mem_withIds_inv hr
      omega
    · obtain ⟨-, -, -, -, h4⟩ := hCmem r hr
      omega
  · -- endpoint bounds for the new latest dump time
    have h4 : ∀ r ∈ applyClose s.recs stf.update_rows ++
        withIds s.nextId stf.insert_rows ++
        withIds (s.nextId + stf.insert_rows.length)
          (stf.insert_vrps.map (fun p => (p.1, Visible.mk p.2 none))),
        recBounded M r := by
      intro r hr
      rw [List.mem_append, List.mem_append] at hr
      rcases hr with (hr | hr) | hr
      · rw [applyClose, List.mem_map] at hr
        obtain ⟨r0, hr0, rfl⟩ := hr
        cases hl : latestTs s with
        | none =>
          rw [hl] at hbnd
          rw [hbnd] at hr0
          cases hr0
        | some l =>
          have hbnd' := by rw [hl] at hbnd; exact hbnd
          have hlM : l ≤ M := hM3 l hl
          rcases flutter_closeOne_spec s hsep hids hl hMf hr0 with
            ⟨he, -⟩ | ⟨e, he, hc, hl2, -, hu⟩ <;> rw [he]
          · obtain ⟨hb1, hb2⟩ := hbnd' r0 hr0
            exact ⟨Nat.le_trans hb1 hlM,
              fun u hu => ⟨(hb2 u hu).1, Nat.le_trans (hb2 u hu).2 hlM⟩⟩
          · have heM : e ≤ M := by
              have := hSf.1 _ hu e rfl
              omega
            rw [containsT_iff] at hc
            refine ⟨Nat.le_trans hc.1 hlM, ?_⟩
            intro u hu2
            obtain rfl : e = u := by injection hu2
            exact ⟨Nat.le_trans hc.1 (Nat.le_of_lt hl2), heM⟩
      · obtain ⟨p, hp, -, h2, -, -⟩ := mem_withIds_inv hr
        obtain ⟨⟨ap, bp, hshp, hab, -⟩, -, -⟩ := hMf.ins_inv p hp
        have hstamps := hSf.2.2 p hp
        refine ⟨?_, ?_⟩
        · rw [h2]
          have h5 := hstamps.1
          omega
        · intro u hu2
          rw [h2, hshp] at hu2
          obtain rfl : bp = u := by injection hu2
          have h6 := hstamps.2 bp (by rw [hshp])
          rw [h2, hshp]
          constructor
          · exact hab
          · omega
      · obtain ⟨q, hq, -, h2, -, -⟩ := hCmem r hr
        have h5 := hSf.2.1 q hq
        refine ⟨?_, ?_⟩
        · rw [h2]
          show q.2 ≤ M
          omega
        · intro u hu2
          rw [h2] at hu2
          cases hu2
    rw [hM1]
    exact h4

theorem WF_emptyStore : WF emptyStore := by
  unfold WF
  exact ⟨List.Pairwise.nil, List.nodup_nil,
    fun r hr => absurd hr (List.not_mem_nil r), rfl⟩

theorem StoreInv_of_WF {s : Store} (h : WF s) : StoreInv s := by
  obtain ⟨hsep, -, -, -⟩ := h
  refine ⟨hsep, hsep.imp ?_⟩
  intro a b hab hv ⟨hao, hbo⟩
  have hno := hab hv
  have hc1 : a.visible.containsT (Nat.max a.visible.lower b.visible.lower) = true := by
    rw [containsT_iff]
    exact ⟨Nat.le_max_left _ _, fun u hu => by rw [hao] at hu; cases hu⟩
  have hc2 : b.visible.containsT (Nat.max a.visible.lower b.visible.lower) = true := by
    rw [containsT_iff]
    exact ⟨Nat.le_max_right _ _, fun u hu => by rw [hbo] at hu; cases hu⟩
  exact hno _ ⟨hc1, hc2⟩

theorem WF_foldl_applyRun (rs : List Run) :
    ∀ s, WF s → OKSeq s rs → WF (rs.foldl applyRun s) := by
  induction rs with
  | nil =>
    intro s h _
    exact h
  | cons r rs ih =>
    intro s hwf hok
    obtain ⟨h1, h2⟩ : RunOK s r ∧ OKSeq (applyRun s r) rs := hok
    rw [List.foldl_cons]
    refine ih (applyRun s r) ?_ h2
    cases r with
    | snap n t => exact runViews_WF s n t hwf h1
    | fl evs => exact runFlutter_WF s evs hwf h1

/-- C1, as stated, fails: a full-snapshot run whose dump time predates the
stored history (the scripts accept an arbitrary explicit `-t` timestamp and
never check monotonicity) re-opens an interval inside an already closed one,
so the same VRP identity ends up with two overlapping stored intervals. -/
theorem c1_counterexample :
    ¬ StoreInv (runSeq [.snap [⟨⟨10, 8⟩, 65001, 24⟩] 10,
      .snap [⟨⟨10, 8⟩, 65001, 24⟩] 20, .snap [] 30,
      .snap [⟨⟨10, 8⟩, 65001, 24⟩] 15]) := by
  intro h
  obtain ⟨hsep, -⟩ := h
  have hrecs : (runSeq [.snap [⟨⟨10, 8⟩, 65001, 24⟩] 10,
      .snap [⟨⟨10, 8⟩, 65001, 24⟩] 20, .snap [] 30,
      .snap [⟨⟨10, 8⟩, 65001, 24⟩] 15]).recs =
      [⟨0, ⟨⟨10, 8⟩, 65001, 24⟩, ⟨10, some 20⟩⟩,
       ⟨1, ⟨⟨10, 8⟩, 65001, 24⟩, ⟨15, none⟩⟩] := by rfl
  rw [hrecs] at hsep
  have h2 := (List.pairwise_cons.1 hsep).1 _ (List.mem_singleton.2 rfl) rfl
  exact h2 15 ⟨by decide, by decide⟩

/-- C1 (amended): starting from the empty store, after any admissible sequence
of reconciliation runs — every full snapshot duplicate-free with a dump time
strictly after the stored history, every event stream nonempty with strictly
increasing timestamps all strictly after the stored history — each VRP
identity's stored visibility intervals are pairwise non-overlapping and at
most one of them is open. -/
theorem c1_amended (rs : List Run) (hok : OKSeq emptyStore rs) :
    StoreInv (runSeq rs) :=
  StoreInv_of_WF (WF_foldl_applyRun rs emptyStore WF_emptyStore hok)

/-- C1 witness: one snapshot run followed by one event-stream run, admissible,
and the resulting store satisfies the invariant. -/
theorem c1_amended_witness :
    OKSeq emptyStore [.snap [⟨⟨10, 8⟩, 65001, 24⟩] 10,
      .fl [⟨.announce, ⟨⟨10, 8⟩, 65001, 24⟩, 20⟩]] ∧
    StoreInv (runSeq [.snap [⟨⟨10, 8⟩, 65001, 24⟩] 10,
      .fl [⟨.announce, ⟨⟨10, 8⟩, 65001, 24⟩, 20⟩]]) :=
  ⟨by decide, c1_amended [.snap [⟨⟨10, 8⟩, 65001, 24⟩] 10,
    .fl [⟨.announce, ⟨⟨10, 8⟩, 65001, 24⟩, 20⟩]] (by decide)⟩

/-! ### C3: the RFC 6811 decision table (`get_rpki_status`) -/

theorem statusLoop_eq_valid (plen asn : Nat) (l : List VRP) (found : Bool) :
    statusLoop plen asn l found = .valid ↔
      ∃ v ∈ l, v.asn = asn ∧ v.asn ≠ 0 ∧ plen ≤ v.max_length := by
  induction l generalizing found with
  | nil => simp [statusLoop]; split <;> simp
  | cons v rest ih =>
    by_cases hskip : v.asn = 0 ∨ v.asn ≠ asn
    · rw [statusLoop, if_pos hskip, ih]
      constructor
      · rintro ⟨w, hw, h⟩; exact ⟨w, List.mem_cons_of_mem _ hw, h⟩
      · rintro ⟨w, hw, h⟩
        rcases List.mem_cons.1 hw with rfl | hw'
        · rcases hskip with h0 | hne
          · exact absurd h0 h.2.1
          · exact absurd h.1 hne
        · exact ⟨w, hw', h⟩
    · push_neg at hskip
      rw [statusLoop, if_neg (by push_neg; exact hskip)]
      by_cases hlen : plen ≤ v.max_length
      · rw [if_pos hlen]
        constructor
        · intro _; exact ⟨v, List.mem_cons_self v rest, hskip.2, hskip.1, hlen⟩
        · intro _; rfl
      · rw [if_neg hlen, ih]
        constructor
        · rintro ⟨w, hw, h⟩; exact ⟨w, List.mem_cons_of_mem _ hw, h⟩
        · rintro ⟨w, hw, h⟩
          rcases List.mem_cons.1 hw with rfl | hw'
          · exact absurd h.2.2 hlen
          · exact ⟨w, hw', h⟩

theorem statusLoop_eq_moreSpecific (plen asn : Nat) (l : List VRP) (found : Bool) :
    statusLoop plen asn l found = .invalidMoreSpecific ↔
      (¬∃ v ∈ l, v.asn = asn ∧ v.asn ≠ 0 ∧ plen ≤ v.max_length) ∧
      (found = true ∨ ∃ v ∈ l, v.asn = asn ∧ v.asn ≠ 0) := by
  induction l generalizing found with
  | nil => cases found <;> simp [statusLoop]
  | cons v rest ih =>
    by_cases hskip : v.asn = 0 ∨ v.asn ≠ asn
    · rw [statusLoop, if_pos hskip, ih]
      have hvno : ¬(v.asn = asn ∧ v.asn ≠ 0) := by
        rintro ⟨h1, h2⟩
        rcases hskip with h0 | hne
        · exact h2 h0
        · exact hne h1
      constructor
      · rintro ⟨hno, hf⟩
        refine ⟨?_, ?_⟩
        · rintro ⟨w, hw, h⟩
          rcases List.mem_cons.1 hw with rfl | hw'
          · exact hvno ⟨h.1, h.2.1⟩
          · exact hno ⟨w, hw', h⟩
        · rcases hf with hf | ⟨w, hw, h⟩
          · exact Or.inl hf
          · exact Or.inr ⟨w, List.mem_cons_of_mem _ hw, h⟩
      · rintro ⟨hno, hf⟩
        refine ⟨?_, ?_⟩
        · rintro ⟨w, hw, h⟩; exact hno ⟨w, List.mem_cons_of_mem _ hw, h⟩
        · rcases hf with hf | ⟨w, hw, h⟩
          · exact Or.inl hf
          · rcases List.mem_cons.1 hw with rfl | hw'
            · exact absurd h hvno
            · exact Or.inr ⟨w, hw', h⟩
    · push_neg at hskip
      rw [statusLoop, if_neg (by push_neg; exact hskip)]
      by_cases hlen : plen ≤ v.max_length
      · rw [if_pos hlen]
        constructor
        · intro h; exact absurd h (by simp)
        · rintro ⟨hno, _⟩
          exact absurd ⟨v, List.mem_cons_self v rest, hskip.2, hskip.1, hlen⟩ hno
      · rw [if_neg hlen, ih]
        constructor
        · rintro ⟨hno, _⟩
          refine ⟨?_, Or.inr ⟨v, List.mem_cons_self v rest, hskip.2, hskip.1⟩⟩
          rintro ⟨w, hw, h⟩
          rcases List.mem_cons.1 hw with rfl | hw'
          · exact hlen h.2.2
          · exact hno ⟨w, hw', h⟩
        · rintro ⟨hno, _⟩
          refine ⟨?_, Or.inl rfl⟩
          rintro ⟨w, hw, h⟩; exact hno ⟨w, List.mem_cons_of_mem _ hw, h⟩

theorem statusLoop_ne_notFound (plen asn : Nat) (l : List VRP) (found : Bool) :
    statusLoop plen asn l found ≠ .notFound := by
  induction l generalizing found with
  | nil => cases found <;> simp [statusLoop]
  | cons v rest ih =>
    rw [statusLoop]
    split
    · exact ih found
    · split
      · simp
      · exact ih true

/-- C3: `get_rpki_status` implements the RFC 6811 decision table over the
covering set: `NotFound` iff the covering set is empty; `Valid` iff some
covering VRP has a matching, nonzero origin ASN and passes the max-length
check; `Invalid/moreSpecific` iff some covering VRP has a matching nonzero
origin ASN but none passes the max-length check; `Invalid/noMatchingOrigin`
otherwise (in particular, a covering VRP with ASN 0 never matches). -/
theorem c3_rfc6811_decision_table (vrps : List VRP) (plen asn : Nat) :
    (getRpkiStatus vrps plen asn = .notFound ↔ vrps = []) ∧
    (getRpkiStatus vrps plen asn = .valid ↔
      ∃ v ∈ vrps, v.asn = asn ∧ v.asn ≠ 0 ∧ plen ≤ v.max_length) ∧
    (getRpkiStatus vrps plen asn = .invalidMoreSpecific ↔
      (∃ v ∈ vrps, v.asn = asn ∧ v.asn ≠ 0) ∧
      ¬∃ v ∈ vrps, v.asn = asn ∧ v.asn ≠ 0 ∧ plen ≤ v.max_length) ∧
    (getRpkiStatus vrps plen asn = .invalidNoMatchingOrigin ↔
      vrps ≠ [] ∧ ¬∃ v ∈ vrps, v.asn = asn ∧ v.asn ≠ 0) := by
  by_cases hnil : vrps = []
  · subst hnil; simp [getRpkiStatus]
  · have hloop := statusLoop_eq_valid plen asn vrps false
    have hmore := statusLoop_eq_moreSpecific plen asn vrps false
    have hnf := statusLoop_ne_notFound plen asn vrps false
    rw [getRpkiStatus, if_neg hnil]
    refine ⟨by simp [hnf, hnil], hloop, ?_, ?_⟩
    · rw [hmore]
      simp only [Bool.false_eq_true, false_or]
      tauto
    · constructor
      · intro h
        refine ⟨hnil, ?_⟩
        rintro ⟨v, hv, hmatch⟩
        by_cases hval : ∃ w ∈ vrps, w.asn = asn ∧ w.asn ≠ 0 ∧ plen ≤ w.max_length
        · rw [hloop.2 hval] at h; exact absurd h (by simp)
        · have : statusLoop plen asn vrps false = .invalidMoreSpecific :=
            hmore.2 ⟨hval, Or.inr ⟨v, hv, hmatch⟩⟩
          rw [this] at h; exact absurd h (by simp)
      · rintro ⟨-, hno⟩
        rcases h : statusLoop plen asn vrps false with h' | h' | h' | h'
        · exact absurd h hnf
        · rcases hloop.1 h with ⟨v, hv, h1, h2, _⟩
          exact absurd ⟨v, hv, h1, h2⟩ hno
        · rcases (hmore.1 h).2 with hfal | hex
          · exact absurd hfal (by simp)
          · exact absurd hex hno
        · rfl

/-! ### C8 / C9 / C10: the `/vrp` endpoint -/

/-- C8: a `vrpsAt` query with an explicit timestamp succeeds exactly when some
history exists and the timestamp lies within `[earliest, latest]`; outside
these bounds (or with no ingested dump) it fails with the not-found error and
no result list — in particular never an empty-but-successful one — is
produced. -/
theorem c8_vrpsAt_out_of_range (s : Store) (q : Pfx) (ts : Nat) :
    ((∃ out, vrpOnGet s ⟨q, some ts, none, none⟩ = .ok out) ↔
      ∃ e l, dumpTimeRange s = some (e, l) ∧ e ≤ ts ∧ ts ≤ l) ∧
    ((∃ err, vrpOnGet s ⟨q, some ts, none, none⟩ = .error err) ↔
      (dumpTimeRange s = none ∨
        ∃ e l, dumpTimeRange s = some (e, l) ∧ (ts < e ∨ l < ts))) := by
  unfold vrpOnGet
  cases hdr : dumpTimeRange s with
  | none => simp [hdr]
  | some el =>
    obtain ⟨e, l⟩ := el
    by_cases hout : ts < e ∨ ts > l
    · simp only [hdr]
      simp [hout]
      exact ⟨by omega, e, l, ⟨rfl, rfl⟩, by omega⟩
    · simp only [hdr]
      simp [hout]
      exact ⟨⟨e, l, ⟨rfl, rfl⟩, by omega, by omega⟩, by omega, by omega⟩

theorem mem_insertByVisible {r x : Rec} {l : List Rec} :
    x ∈ sortByVisible.insertByVisible r l ↔ x = r ∨ x ∈ l := by
  induction l with
  | nil => simp [sortByVisible.insertByVisible]
  | cons y ys ih =>
    rw [sortByVisible.insertByVisible]
    split
    · simp
    · simp only [List.mem_cons, ih]
      tauto

theorem mem_sortByVisible {x : Rec} {l : List Rec} :
    x ∈ sortByVisible l ↔ x ∈ l := by
  induction l with
  | nil => simp [sortByVisible]
  | cons y ys ih => rw [sortByVisible, mem_insertByVisible, ih]; simp

theorem mem_formatVrps {latest : Nat} {rows : List Rec} {o : OutVrp}
    (h : o ∈ formatVrps latest rows) :
    ∃ r ∈ rows, o.vrp = r.vrp ∧ o.visFrom = r.visible.lower ∧
      ((r.visible.upper = none ∧ o.visTo = latest) ∨
        ∃ u, r.visible.upper = some u ∧ o.visTo = u) := by
  rw [formatVrps, List.mem_map] at h
  obtain ⟨r, hr, rfl⟩ := h
  refine ⟨r, hr, rfl, rfl, ?_⟩
  cases hu : r.visible.upper with
  | none => exact Or.inl ⟨rfl, by simp [hu]⟩
  | some u => exact Or.inr ⟨u, rfl, by simp [hu]⟩

/-- C9 counterexample: with history `[10, 20]`, a `vrpsInRange` query whose
start bound `30` lies after the latest dump succeeds (here with an empty
result list) instead of failing as out-of-range. -/
theorem c9_counterexample :
    dumpTimeRange ⟨[], [⟨10, 0, 0, 0⟩, ⟨20, 0, 0, 0⟩], 0⟩ = some (10, 20) ∧
    vrpOnGet ⟨[], [⟨10, 0, 0, 0⟩, ⟨20, 0, 0, 0⟩], 0⟩ ⟨⟨0, 0⟩, none, some 30, none⟩ =
      .ok [] := by
  exact ⟨rfl, rfl⟩

/-- C9 amended: in a `vrpsInRange` query each bound is checked against only one
side of the available history — the query fails exactly when no dump exists,
or the start bound (if present) is before the earliest dump, or the end bound
(if present) is after the latest dump; a start bound after the latest dump or
an end bound before the earliest dump does not make it fail. -/
theorem vrpOnGet_range_eq (s : Store) (q : Pfx) (gte? lte? : Option Nat)
    (e l : Nat) (hdr : dumpTimeRange s = some (e, l))
    (hb : gte?.isSome ∨ lte?.isSome) :
    vrpOnGet s ⟨q, none, gte?, lte?⟩ =
      if (∃ a, gte? = some a ∧ a < e) ∨ (∃ b, lte? = some b ∧ b > l) then
        .error .notFound
      else .ok (formatVrps l (coveringInRange s q gte? lte?)) := by
  unfold vrpOnGet
  simp only [hdr]
  simp [hb]

theorem c9_amended_range_check (s : Store) (q : Pfx) (gte? lte? : Option Nat) :
    (∃ err, vrpOnGet s ⟨q, none, gte?, lte?⟩ = .error err) ↔
      (dumpTimeRange s = none ∨
        ∃ e l, dumpTimeRange s = some (e, l) ∧
          ((∃ a, gte? = some a ∧ a < e) ∨ ∃ b, lte? = some b ∧ l < b)) := by
  cases hdr : dumpTimeRange s with
  | none =>
    cases gte? <;> cases lte? <;> simp [vrpOnGet, hdr]
  | some el =>
    obtain ⟨e, l⟩ := el
    by_cases hb : gte?.isSome ∨ lte?.isSome
    · rw [vrpOnGet_range_eq s q gte? lte? e l hdr hb]
      by_cases hout : (∃ a, gte? = some a ∧ a < e) ∨ ∃ b, lte? = some b ∧ b > l
      · rw [if_pos hout]
        constructor
        · intro _
          exact Or.inr ⟨e, l, rfl, hout⟩
        · intro _
          exact ⟨.notFound, rfl⟩
      · rw [if_neg hout]
        constructor
        · rintro ⟨err, herr⟩
          exact absurd herr (by simp)
        · rintro (hnone | ⟨e', l', heq, hcond⟩)
          · exact absurd hnone (by simp)
          · obtain ⟨rfl, rfl⟩ : e = e' ∧ l = l' := by
              injection heq with h2
              exact ⟨congrArg Prod.fst h2, congrArg Prod.snd h2⟩
            exact absurd hcond hout
    · have hg : gte? = none := by
        cases gte? <;> simp_all
      have hl : lte? = none := by
        cases lte? <;> simp_all
      subst hg hl
      simp [vrpOnGet, hdr]

/-- C10: every VRP in a successful `/vrp` response (point or range query)
reports `visible.to` equal to the stored upper bound when the interval is
closed, and equal to the latest known dump time when the stored interval is
open — never a missing value. -/
theorem c10_open_interval_reported_to (s : Store) (p : VrpParams)
    (out : List OutVrp) (h : vrpOnGet s p = .ok out) :
    ∀ o ∈ out, ∃ r ∈ s.recs, ∃ e l, dumpTimeRange s = some (e, l) ∧
      o.vrp = r.vrp ∧ o.visFrom = r.visible.lower ∧
      ((r.visible.upper = none ∧ o.visTo = l) ∨
        ∃ u, r.visible.upper = some u ∧ o.visTo = u) := by
  intro o ho
  obtain ⟨q, ts?, gte?, lte?⟩ := p
  unfold vrpOnGet at h
  split at h
  · exact absurd h (by simp)
  · cases hdr : dumpTimeRange s with
    | none =>
      rw [hdr] at h
      cases ts? <;> simp only [] at h
      · split at h <;> simp at h
      · exact absurd h (by simp)
    | some el =>
      obtain ⟨e, l⟩ := el
      rw [hdr] at h
      cases ts? with
      | some ts =>
        simp only [] at h
        split at h
        · exact absurd h (by simp)
        · obtain rfl : formatVrps l (coveringAt s q ts) = out := by injection h
          obtain ⟨r, hr, h1, h2, h3⟩ := mem_formatVrps ho
          exact ⟨r, (List.mem_filter.1 hr).1, e, l, rfl, h1, h2, h3⟩
      | none =>
        simp only [] at h
        split at h
        · split at h
          · exact absurd h (by simp)
          · obtain rfl : formatVrps l (coveringInRange s q gte? lte?) = out := by
              injection h
            obtain ⟨r, hr, h1, h2, h3⟩ := mem_formatVrps ho
            refine ⟨r, ?_, e, l, rfl, h1, h2, h3⟩
            exact (List.mem_filter.1 (mem_sortByVisible.1 hr)).1
        · obtain rfl : formatVrps l (coveringAt s q l) = out := by injection h
          obtain ⟨r, hr, h1, h2, h3⟩ := mem_formatVrps ho
          exact ⟨r, (List.mem_filter.1 hr).1, e, l, rfl, h1, h2, h3⟩

/-- C10 witness: a store with one open and one closed row, queried at the
latest dump time. -/
theorem c10_witness :
    ∃ r ∈ [Rec.mk 0 ⟨⟨0, 0⟩, 65001, 24⟩ ⟨10, none⟩],
      ∃ e l, dumpTimeRange ⟨[⟨0, ⟨⟨0, 0⟩, 65001, 24⟩, ⟨10, none⟩⟩], [⟨10, 0, 0, 1⟩, ⟨20, 0, 1, 0⟩], 1⟩ = some (e, l) ∧
      (OutVrp.mk ⟨⟨0, 0⟩, 65001, 24⟩ 10 20).vrp = r.vrp ∧
      (OutVrp.mk ⟨⟨0, 0⟩, 65001, 24⟩ 10 20).visFrom = r.visible.lower ∧
      ((r.visible.upper = none ∧ (OutVrp.mk ⟨⟨0, 0⟩, 65001, 24⟩ 10 20).visTo = l) ∨
        ∃ u, r.visible.upper = some u ∧
          (OutVrp.mk ⟨⟨0, 0⟩, 65001, 24⟩ 10 20).visTo = u) :=
  c10_open_interval_reported_to
    ⟨[⟨0, ⟨⟨0, 0⟩, 65001, 24⟩, ⟨10, none⟩⟩], [⟨10, 0, 0, 1⟩, ⟨20, 0, 1, 0⟩], 1⟩
    ⟨⟨0, 0⟩, some 20, none, none⟩ _ rfl
    (OutVrp.mk ⟨⟨0, 0⟩, 65001, 24⟩ 10 20) (List.mem_singleton.2 rfl)

/-! ### C4: empty full-snapshot observation -/

/-- C4 evaluation at the failing input: starting from an empty store, a
full-snapshot run makes the VRP active (open since 10); a subsequent
full-snapshot run whose observation set is empty closes that active interval
and records `deleted_vrps = 1` — the empty observation is silently treated as
a withdrawal of every active VRP, with no guard distinguishing it from a
failed fetch. -/
theorem c4_empty_observation_closes_all :
    runSeq [.snap [⟨⟨10, 8⟩, 65001, 24⟩] 10, .snap [] 20] =
      ⟨[⟨0, ⟨⟨10, 8⟩, 65001, 24⟩, ⟨10, some 10⟩⟩],
        [⟨10, 0, 0, 1⟩, ⟨20, 1, 0, 0⟩], 1⟩ := by
  rfl

/-! ### C7: withdraw of a pending-insert VRP -/

/-- C7: a withdraw event for a VRP that is not in the active set but is in the
pending-insert map removes it from the pending-insert map, emits a single
fully bounded interval `[start, ts]` into the `insert_rows` batch, and counts
it as deleted (active set, `update_rows` and the other counters untouched);
moreover every `insert_rows` entry is stored by the run as a row with exactly
that bounded interval, so it is never stored as open. -/
theorem c7_withdraw_pending (st : FlState) (v : VRP) (ts lo : Nat)
    (h1 : mlookup st.latest v = none) (h2 : mlookup st.insert_vrps v = some lo) :
    flutterStep st ⟨.withdraw, v, ts⟩ =
      { st with nDel := st.nDel + 1,
                insert_vrps := merase st.insert_vrps v,
                insert_rows := st.insert_rows ++ [(v, ⟨lo, some ts⟩)] } ∧
    ∀ (s : Store) (evs : List Ev) (p : VRP × Visible),
      p ∈ (evs.foldl flutterStep ⟨getLatestVrps s, [], [], [], 0, 0, 0⟩).insert_rows →
      ∃ r ∈ (runFlutter s evs).recs, r.vrp = p.1 ∧ r.visible = p.2 := by
  constructor
  · rw [flutterStep]
    simp only [h1, h2]
    simp
  · intro s evs p hp
    obtain ⟨id, hid⟩ := @mem_withIds _ s.nextId _ hp
    refine ⟨⟨id, p.1, p.2⟩, ?_, rfl, rfl⟩
    unfold runFlutter
    simp only [List.mem_append]
    exact Or.inl (Or.inr hid)

/-- C7 witness: a concrete working state with one pending-insert entry. -/
theorem c7_witness :
    flutterStep ⟨[], [(⟨⟨10, 8⟩, 65001, 24⟩, 5)], [], [], 0, 0, 0⟩
        ⟨.withdraw, ⟨⟨10, 8⟩, 65001, 24⟩, 7⟩ =
      ⟨[], [], [], [(⟨⟨10, 8⟩, 65001, 24⟩, ⟨5, some 7⟩)], 1, 0, 0⟩ := by
  have h := (c7_withdraw_pending ⟨[], [(⟨⟨10, 8⟩, 65001, 24⟩, 5)], [], [], 0, 0, 0⟩
    ⟨⟨10, 8⟩, 65001, 24⟩ 7 5 (by rfl) (by rfl)).1
  rw [h]
  rfl

/-! ### C6: the state / withdraw / announce scenario -/

/-- C6: for events `state(V,t0)`, `withdraw(V,t1)`, `announce(V,t2)` with
`t0 < t1 < t2` and V active (open since `prev_start ≤ latest dump`), the run
produces exactly one closed interval `[prev_start, t1]` and one new open
interval starting at `t2` for V, and the recorded metadata row counts
`deleted = 1` and `new = 1` (and `unchanged = 1` from the state event). -/
theorem c6_state_withdraw_announce (v : VRP) (p l t0 t1 t2 : Nat)
    (hp : p ≤ l) (h01 : t0 < t1) (h12 : t1 < t2) :
    runFlutter ⟨[⟨0, v, ⟨p, none⟩⟩], [⟨l, 0, 0, 1⟩], 1⟩
        [⟨.state, v, t0⟩, ⟨.withdraw, v, t1⟩, ⟨.announce, v, t2⟩] =
      ⟨[⟨0, v, ⟨p, some t1⟩⟩, ⟨1, v, ⟨t2, none⟩⟩],
        [⟨l, 0, 0, 1⟩, ⟨t2, 1, 1, 1⟩], 2⟩ := by
  have hlat : getLatestVrps ⟨[⟨0, v, ⟨p, none⟩⟩], [⟨l, 0, 0, 1⟩], 1⟩ =
      [(v, (0, ⟨p, none⟩))] := by
    unfold getLatestVrps latestTs listMax?
    simp [Visible.containsT, hp, rowsToDict, minsert, merase]
  unfold runFlutter maxTs
  rw [hlat]
  simp [flutterStep, mlookup, merase, minsert, withIds, applyClose, closeOne,
    List.find?, Nat.zero_max, Nat.max_eq_right h01.le, Nat.max_eq_right h12.le]

/-- C6 witness: the scenario at concrete timestamps. -/
theorem c6_witness :
    runFlutter ⟨[⟨0, ⟨⟨10, 8⟩, 65001, 24⟩, ⟨5, none⟩⟩], [⟨10, 0, 0, 1⟩], 1⟩
        [⟨.state, ⟨⟨10, 8⟩, 65001, 24⟩, 11⟩,
          ⟨.withdraw, ⟨⟨10, 8⟩, 65001, 24⟩, 12⟩,
          ⟨.announce, ⟨⟨10, 8⟩, 65001, 24⟩, 13⟩] =
      ⟨[⟨0, ⟨⟨10, 8⟩, 65001, 24⟩, ⟨5, some 12⟩⟩,
          ⟨1, ⟨⟨10, 8⟩, 65001, 24⟩, ⟨13, none⟩⟩],
        [⟨10, 0, 0, 1⟩, ⟨13, 1, 1, 1⟩], 2⟩ :=
  c6_state_withdraw_announce ⟨⟨10, 8⟩, 65001, 24⟩ 5 10 11 12 13
    (by decide) (by decide) (by decide)

end RpkiHistory
